import Mathlib

set_option maxHeartbeats 1000000
set_option maxRecDepth 8000

namespace Facto

/-!
Shallow embedding of the AI-service subsystem of the `ai-dialogue-hub`
repository: the JSON-like payload values carried by tool results
(`facto/tools/base.py`), the tool executor (`facto/tools/executor.py`),
the provider-facing data model (`facto/providers/base.py`), the
orchestration service (`facto/services/ai_service.py`), the Anthropic
system-message extraction (`facto/providers/anthropic_provider.py`) and
the Telegram streaming-update controller (`facto/services/streaming.py`).

Provider network calls are modelled as oracles: pure functions from the
message history (and offered tool schemas) to the vendor response, so
theorems quantify over all provider behaviours.
-/

/-- JSON-like payload values: the shapes Python's `json.dumps` accepts and
the `result` field of `ToolResult` in `facto/tools/base.py` carries
(`None`, `bool`, `int`, `str`, `list`, `dict`). Strings are kept as
character lists so serialization is character-exact. -/
inductive Value : Type where
  | vnull : Value
  | vbool : Bool → Value
  | vint : Int → Value
  | vstr : List Char → Value
  | varr : List Value → Value
  | vobj : List (List Char × Value) → Value

/-- The decimal digit character for `d < 10`. -/
def digitChar (d : Nat) : Char := Char.ofNat (48 + d)

/-- Decimal digits of a natural number, most significant first, as Python
`str(n)` renders a non-negative integer. -/
def natToChars (n : Nat) : List Char :=
  if n < 10 then [digitChar n]
  else natToChars (n / 10) ++ [digitChar (n % 10)]
termination_by n
decreasing_by exact Nat.div_lt_self (by omega) (by omega)

/-- Python `str` of an `int` value. -/
def intToChars (n : Int) : List Char :=
  if n < 0 then '-' :: natToChars n.natAbs else natToChars n.natAbs

/-- Lower-case hexadecimal digit for `d < 16`. -/
def hexDigit (d : Nat) : Char :=
  if d < 10 then digitChar d else Char.ofNat (87 + d)

/-- Four lower-case hex digits of `n % 65536`, as in a JSON `\uXXXX` escape. -/
def hexFour (n : Nat) : List Char :=
  [hexDigit (n / 4096 % 16), hexDigit (n / 256 % 16), hexDigit (n / 16 % 16), hexDigit (n % 16)]

/-- The escape sequence Python's `json.dumps` (with its default
`ensure_ascii=True`) emits for one character of a string. -/
def escapeChar (c : Char) : List Char :=
  if c = '"' then ['\\', '"']
  else if c = '\\' then ['\\', '\\']
  else if c = '\n' then ['\\', 'n']
  else if c = '\t' then ['\\', 't']
  else if c = '\r' then ['\\', 'r']
  else if c = '\x08' then ['\\', 'b']
  else if c = '\x0c' then ['\\', 'f']
  else if c.toNat < 32 then '\\' :: 'u' :: hexFour c.toNat
  else if c.toNat < 127 then [c]
  else if c.toNat < 65536 then '\\' :: 'u' :: hexFour c.toNat
  else
    let v := c.toNat - 65536
    ('\\' :: 'u' :: hexFour (55296 + v / 1024)) ++ ('\\' :: 'u' :: hexFour (56320 + v % 1024))

/-- JSON encoding of the characters of a string body, escape by escape. -/
def encodeBody : List Char → List Char
  | [] => []
  | c :: s => escapeChar c ++ encodeBody s

/-- JSON encoding of a string, quotes included. -/
def encodeString (s : List Char) : List Char := '"' :: (encodeBody s ++ ['"'])

/-- The run of spaces `json.dumps(-, indent=2)` puts in front of a line. -/
def indentChars (n : Nat) : List Char := List.replicate n ' '

mutual
/-- Character-exact embedding of Python `json.dumps(v, indent=2)` at
nesting level `lvl` (so the closing bracket of a container is indented by
`2*lvl` spaces).  With `indent` set, Python uses separators `","` and
`": "` and puts every container element on its own line. -/
def serValue : Value → Nat → List Char
  | .vnull, _ => ['n', 'u', 'l', 'l']
  | .vbool true, _ => ['t', 'r', 'u', 'e']
  | .vbool false, _ => ['f', 'a', 'l', 's', 'e']
  | .vint n, _ => intToChars n
  | .vstr s, _ => encodeString s
  | .varr [], _ => ['[', ']']
  | .varr (v :: vs), lvl =>
      '[' :: '\n' :: (serItems (v :: vs) (lvl + 1) ++ ('\n' :: (indentChars (2 * lvl) ++ [']'])))
  | .vobj [], _ => ['\x7b', '\x7d']
  | .vobj (e :: es), lvl =>
      '\x7b' :: '\n' :: (serEntries (e :: es) (lvl + 1) ++ ('\n' :: (indentChars (2 * lvl) ++ ['\x7d'])))

/-- Elements of a JSON array under `indent=2`, one per line. -/
def serItems : List Value → Nat → List Char
  | [], _ => []
  | [v], lvl => indentChars (2 * lvl) ++ serValue v lvl
  | v :: v' :: vs, lvl =>
      indentChars (2 * lvl) ++ (serValue v lvl ++ (',' :: '\n' :: serItems (v' :: vs) lvl))

/-- Members of a JSON object under `indent=2`, one per line. -/
def serEntries : List (List Char × Value) → Nat → List Char
  | [], _ => []
  | [(k, v)], lvl => indentChars (2 * lvl) ++ (encodeString k ++ (':' :: ' ' :: serValue v lvl))
  | (k, v) :: e :: es, lvl =>
      indentChars (2 * lvl) ++
        (encodeString k ++ (':' :: ' ' :: (serValue v lvl ++ (',' :: '\n' :: serEntries (e :: es) lvl))))
end

/-- Python `json.dumps(v, indent=2)` as a `String`, the call
`ToolResult.to_message_content` makes on a `dict` payload. -/
def json_dumps_indent2 (v : Value) : String := ⟨serValue v 0⟩

/-- The escape Python's `repr` of a string emits for one character, given
the chosen quote character `q`. -/
def pyReprCharEsc (q : Char) (c : Char) : List Char :=
  if c = '\\' then ['\\', '\\']
  else if c = q then ['\\', q]
  else if c = '\n' then ['\\', 'n']
  else if c = '\r' then ['\\', 'r']
  else if c = '\t' then ['\\', 't']
  else if c.toNat < 32 ∨ c.toNat = 127 then ['\\', 'x', hexDigit (c.toNat / 16), hexDigit (c.toNat % 16)]
  else [c]

/-- Python `repr` of a string: single quotes, switching to double quotes
when the string holds a single quote but no double quote. -/
def pyReprStr (s : List Char) : List Char :=
  let q : Char := if s.contains '\'' && !(s.contains '"') then '"' else '\''
  q :: (s.foldr (fun c acc => pyReprCharEsc q c ++ acc) [] ++ [q])

mutual
/-- Python `repr` of a JSON-like value, which is what `str` falls back to
for `list` and `dict` payloads. -/
def pyReprValue : Value → List Char
  | .vnull => ['N', 'o', 'n', 'e']
  | .vbool true => ['T', 'r', 'u', 'e']
  | .vbool false => ['F', 'a', 'l', 's', 'e']
  | .vint n => intToChars n
  | .vstr s => pyReprStr s
  | .varr vs => '[' :: (pyReprList vs ++ [']'])
  | .vobj es => '\x7b' :: (pyReprEntries es ++ ['\x7d'])

/-- Comma-separated `repr`s of list elements. -/
def pyReprList : List Value → List Char
  | [] => []
  | [v] => pyReprValue v
  | v :: v' :: vs => pyReprValue v ++ (',' :: ' ' :: pyReprList (v' :: vs))

/-- Comma-separated `repr`s of dict entries. -/
def pyReprEntries : List (List Char × Value) → List Char
  | [] => []
  | [(k, v)] => pyReprStr k ++ (':' :: ' ' :: pyReprValue v)
  | (k, v) :: e :: es =>
      pyReprStr k ++ (':' :: ' ' :: (pyReprValue v ++ (',' :: ' ' :: pyReprEntries (e :: es))))
end

/-- Python `str` applied to a JSON-like value: identity on strings, the
usual literals for `None`/`True`/`False`, decimal for integers, `repr`
for containers. -/
def pyStr : Value → String
  | .vnull => "None"
  | .vbool true => "True"
  | .vbool false => "False"
  | .vint n => ⟨intToChars n⟩
  | .vstr s => ⟨s⟩
  | .varr vs => ⟨pyReprValue (.varr vs)⟩
  | .vobj es => ⟨pyReprValue (.vobj es)⟩

/-- Python's f-string rendering of an `Optional[str]`: `None` when absent. -/
def pyOptionStr : Option String → String
  | none => "None"
  | some s => s

/-- Result of one tool execution (`ToolResult` in `facto/tools/base.py`):
`success` flag, opaque payload, optional error message. -/
structure ToolResult where
  success : Bool
  result : Value
  error : Option String := none

/-- Embedding of `ToolResult.to_message_content` in `facto/tools/base.py`:
a successful `dict` payload renders as `json.dumps(result, indent=2)`, any
other successful payload as `str(result)`, and a failure as
`"Error: " + error`. -/
def ToolResult.to_message_content (r : ToolResult) : String :=
  if r.success then
    match r.result with
    | .vobj _ => json_dumps_indent2 r.result
    | _ => pyStr r.result
  else "Error: " ++ pyOptionStr r.error

/-- A tool call requested by the model (`ToolCall` in
`facto/providers/base.py`): correlation id, tool name, decoded keyword
arguments. -/
structure ToolCall where
  id : String
  name : String
  arguments : List (String × Value)

/-- One conversation turn (`Message` in `facto/providers/base.py`). -/
structure Message where
  role : String
  content : String
  tool_calls : List ToolCall := []
  tool_call_id : Option String := none

/-- One increment of a streamed response (`StreamChunk` in
`facto/providers/base.py`). -/
structure StreamChunk where
  content : String := ""
  tool_calls : List ToolCall := []
  finish_reason : Option String := none
  is_complete : Bool := false

/-- A complete provider response (`CompletionResponse` in
`facto/providers/base.py`); the `usage` field plays no role here. -/
structure CompletionResponse where
  content : String
  tool_calls : List ToolCall := []
  finish_reason : String := "stop"

/-- The body of one registered tool: from keyword arguments either to a
`ToolResult` or, when the Python body raises, to the exception's message
(`Except.error` models an uncaught exception inside `Tool.execute`). -/
def PyTool : Type := List (String × Value) → Except String ToolResult

/-- Registry of tools (`ToolRegistry` in `facto/tools/registry.py`): a
name-keyed mapping; `get` is dictionary lookup. -/
structure ToolRegistry where
  tools : List (String × PyTool)

/-- Embedding of `ToolRegistry.get`: look a tool up by name. -/
def ToolRegistry.get (reg : ToolRegistry) (name : String) : Option PyTool :=
  match reg.tools.find? (fun t => t.1 == name) with
  | some t => some t.2
  | none => none

/-- Embedding of `ToolRegistry.get_openai_schemas`, abstracted to the list
of registered tool names (the schema dictionaries carry no information the
orchestration layer inspects). -/
def ToolRegistry.get_openai_schemas (reg : ToolRegistry) : List String :=
  reg.tools.map (fun t => t.1)

/-- Embedding of `ToolExecutor.execute_tool_call` in
`facto/tools/executor.py`: an unknown name or a raising body is converted
to a failed `ToolResult`; nothing propagates as an exception. -/
def execute_tool_call (reg : ToolRegistry) (tc : ToolCall) : ToolResult :=
  match reg.get tc.name with
  | none => ⟨false, .vnull, some ("Unknown tool: " ++ tc.name)⟩
  | some tool =>
    match tool tc.arguments with
    | .ok r => r
    | .error e => ⟨false, .vnull, some e⟩

/-- Embedding of `ToolExecutor.execute_all`: every call is executed and
paired with its originating `ToolCall`; `asyncio.gather` returns results
in task-creation order, which `zip` pairs back with the input order. -/
def execute_all (reg : ToolRegistry) (tool_calls : List ToolCall) : List (ToolCall × ToolResult) :=
  tool_calls.map (fun tc => (tc, execute_tool_call reg tc))

/-- A caller-supplied plain message dictionary with `role` and `content`
keys, the input type of `AIService.get_response`/`stream_response`. -/
structure DictMessage where
  role : String
  content : String

/-- Embedding of `AIService._convert_dict_messages`: plain role/content
pairs become `Message`s with no tool metadata. -/
def convert_dict_messages (ms : List DictMessage) : List Message :=
  ms.map (fun m => ⟨m.role, m.content, [], none⟩)

/-- Embedding of `AIService._get_tools`: tool schemas are offered only
when a registry is attached, tools are enabled in the configuration and
the active provider supports them. -/
def get_tools (registry : Option ToolRegistry) (toolsEnabled supportsTools : Bool) :
    Option (List String) :=
  match registry with
  | some reg => if toolsEnabled && supportsTools then some reg.get_openai_schemas else none
  | none => none

/-- The assistant message `AIService._handle_tool_calls` appends before
executing a batch of tool calls. -/
def assistantMessage (content : String) (tool_calls : List ToolCall) : Message :=
  ⟨"assistant", content, tool_calls, none⟩

/-- The `tool`-role result messages appended after an assistant turn, one
per executed call, in execution order. -/
def toolResultMessages (results : List (ToolCall × ToolResult)) : List Message :=
  results.map (fun r => ⟨"tool", r.2.to_message_content, [], some r.1.id⟩)

/-- A non-streaming provider oracle: what `provider.complete` returns for
a given message history and offered tool schemas.  Modelling the provider
as a pure function lets theorems quantify over every provider behaviour. -/
def CompleteOracle : Type := List Message → Option (List String) → CompletionResponse

/-- Trace of one run of the `while` loop in
`AIService._handle_tool_calls`: every history sent to
`provider.complete` inside the loop with the response it returned, plus
the loop's final response and final message list.  The `fuel` argument is
`max_tool_iterations - iteration`, so the loop body runs at most `fuel`
more times. -/
structure LoopTrace where
  histories : List (List Message)
  responses : List CompletionResponse
  final : CompletionResponse
  finalMessages : List Message

/-- Embedding of the `while current_response.tool_calls and iteration <
max_iterations` loop of `AIService._handle_tool_calls`, instrumented with
the trace of provider calls it makes. -/
def handleToolCallsLoop (complete : CompleteOracle) (reg : ToolRegistry) :
    Nat → List Message → CompletionResponse → LoopTrace
  | 0, msgs, resp => ⟨[], [], resp, msgs⟩
  | fuel + 1, msgs, resp =>
    if resp.tool_calls.isEmpty then ⟨[], [], resp, msgs⟩
    else
      let msgs' := (msgs ++ [assistantMessage resp.content resp.tool_calls]) ++
        toolResultMessages (execute_all reg resp.tool_calls)
      let resp' := complete msgs' (some reg.get_openai_schemas)
      let t := handleToolCallsLoop complete reg fuel msgs' resp'
      ⟨msgs' :: t.histories, resp' :: t.responses, t.final, t.finalMessages⟩

/-- Embedding of `AIService._handle_tool_calls`: run the loop with
`max_tool_iterations` budget and return the last response's content. -/
def handle_tool_calls (maxToolIterations : Nat) (complete : CompleteOracle)
    (reg : ToolRegistry) (msgs : List Message) (resp : CompletionResponse) : String :=
  (handleToolCallsLoop complete reg maxToolIterations msgs resp).final.content

/-- Trace of one `AIService.get_response` run: every `CompletionResponse`
received from `provider.complete` in order (the initial call first), the
message history of every in-loop provider call, and the returned string. -/
structure RunTrace where
  responses : List CompletionResponse
  loopHistories : List (List Message)
  finalMessages : List Message
  result : String

/-- Embedding of `AIService.get_response` in
`facto/services/ai_service.py`, instrumented with the provider-call
trace: one initial `provider.complete` call, then the tool loop when the
response carries tool calls and a tool executor exists. -/
def getResponseTrace (maxToolIterations : Nat) (complete : CompleteOracle)
    (registry : Option ToolRegistry) (toolsEnabled supportsTools useTools : Bool)
    (messages : List DictMessage) : RunTrace :=
  let converted := convert_dict_messages messages
  let tools := if useTools then get_tools registry toolsEnabled supportsTools else none
  let resp := complete converted tools
  match registry with
  | some reg =>
    if resp.tool_calls.isEmpty then ⟨[resp], [], converted, resp.content⟩
    else
      let t := handleToolCallsLoop complete reg maxToolIterations converted resp
      ⟨resp :: t.responses, t.histories, t.finalMessages, t.final.content⟩
  | none => ⟨[resp], [], converted, resp.content⟩

/-- Embedding of `AIService.get_response`: the string the service
returns. -/
def get_response (maxToolIterations : Nat) (complete : CompleteOracle)
    (registry : Option ToolRegistry) (toolsEnabled supportsTools useTools : Bool)
    (messages : List DictMessage) : String :=
  (getResponseTrace maxToolIterations complete registry toolsEnabled supportsTools useTools
    messages).result

/-- A streaming provider oracle: the finite chunk sequence
`provider.stream` yields for a given history and offered tool schemas. -/
def StreamOracle : Type := List Message → Option (List String) → List StreamChunk

/-- The extended history `AIService._handle_tool_calls_streaming` builds:
the assistant turn carrying the accumulated content and tool calls,
followed by one `tool`-role result message per executed call. -/
def streamingExtendedHistory (reg : ToolRegistry) (msgs : List Message)
    (assistantContent : String) (tool_calls : List ToolCall) : List Message :=
  (msgs ++ [assistantMessage assistantContent tool_calls]) ++
    toolResultMessages (execute_all reg tool_calls)

/-- Embedding of `AIService._handle_tool_calls_streaming`: execute the
accumulated tool calls, yield one synthetic progress chunk per call (in
order), then forward every chunk of `provider.stream` on the extended
history verbatim. -/
def handle_tool_calls_streaming (stream : StreamOracle) (reg : ToolRegistry)
    (msgs : List Message) (assistantContent : String) (tool_calls : List ToolCall) :
    List StreamChunk :=
  let results := execute_all reg tool_calls
  let toolChunks := results.map (fun r =>
    { content := "\n[Tool: " ++ r.1.name ++ " - " ++
        (if r.2.success then "completed" else "failed") ++ "]\n" : StreamChunk })
  toolChunks ++
    stream (streamingExtendedHistory reg msgs assistantContent tool_calls)
      (some reg.get_openai_schemas)

/-- Embedding of the `async for` body of `AIService.stream_response` over
the chunks of the top-level provider stream: accumulate content and tool
calls, yield each chunk, and after a terminal chunk with a non-empty
accumulated tool-call list (and an attached executor) splice in the
output of `_handle_tool_calls_streaming`. -/
def streamResponseAux (stream : StreamOracle) (registry : Option ToolRegistry)
    (msgs : List Message) : List StreamChunk → String → List ToolCall → List StreamChunk
  | [], _, _ => []
  | c :: rest, acc, tcs =>
    let acc' := acc ++ c.content
    let tcs' := tcs ++ c.tool_calls
    let inserted :=
      match registry with
      | some reg =>
        if c.is_complete && !tcs'.isEmpty then
          handle_tool_calls_streaming stream reg msgs acc' tcs'
        else []
      | none => []
    c :: (inserted ++ streamResponseAux stream registry msgs rest acc' tcs')

/-- Embedding of `AIService.stream_response` in
`facto/services/ai_service.py`: the full chunk sequence the caller
observes. -/
def stream_response (stream : StreamOracle) (registry : Option ToolRegistry)
    (toolsEnabled supportsTools useTools : Bool) (messages : List DictMessage) :
    List StreamChunk :=
  let converted := convert_dict_messages messages
  let tools := if useTools then get_tools registry toolsEnabled supportsTools else none
  streamResponseAux stream registry converted (stream converted tools) "" []

/-- Embedding of `AnthropicProvider._extract_system_message` in
`facto/providers/anthropic_provider.py`, with the accumulators of its
`for` loop explicit: `sys` holds the content of the last system message
seen so far, `filtered` the non-system messages in order. -/
def extractSystemAux : List Message → Option String → List Message → Option String × List Message
  | [], sys, filtered => (sys, filtered)
  | m :: rest, sys, filtered =>
    if m.role == "system" then extractSystemAux rest (some m.content) filtered
    else extractSystemAux rest sys (filtered ++ [m])

/-- Embedding of `AnthropicProvider._extract_system_message`. -/
def extract_system_message (messages : List Message) : Option String × List Message :=
  extractSystemAux messages none []

/-- Configuration of the streaming-update controller
(`TelegramStreamingHandler.__init__` in `facto/services/streaming.py`). -/
structure StreamingConfig where
  update_interval_ms : Int := 500
  min_chars_per_update : Int := 50

/-- Mutable state of `TelegramStreamingHandler`: the sent message's id
(absent until `start`), the accumulated text, the millisecond timestamp
of the last successful edit (or of `start`), and the accumulated-text
length at the last successful edit.  Timestamps are integers standing for
`time.time() * 1000`. -/
structure HandlerState where
  message_id : Option Nat := none
  accumulated_text : String := ""
  last_update_time : Int := 0
  last_sent_length : Nat := 0

/-- An operation issued to the Telegram transport.  `editMessage` carries
the body text; finalize's edits additionally carry a parse mode. -/
inductive TgOp where
  | sendMessage (text : String)
  | editMessage (messageId : Nat) (text : String)
  | finalEdit (messageId : Nat) (text : String) (parseMode : Option String)
  deriving DecidableEq

/-- Embedding of `TelegramStreamingHandler.start` at time `now`: send the
placeholder, record the transport-assigned message id and the current
time as the last-update watermark. -/
def handlerStart (st : HandlerState) (now : Int) (assignedId : Nat)
    (initialText : String := "...") : HandlerState × List TgOp :=
  ({ st with message_id := some assignedId, last_update_time := now },
   [TgOp.sendMessage initialText])

/-- Embedding of `TelegramStreamingHandler._update_message` on the
success path of the transport (the `RetryAfter` / `BadRequest` handlers
re-issue or swallow the same edit and are below this model's boundary):
nothing happens without accumulated text or a message id; otherwise the
accumulated text (with a trailing ` ...` marker while not final) is sent
as an edit and the watermarks advance. -/
def updateMessage (st : HandlerState) (now : Int) (isFinal : Bool) :
    HandlerState × List TgOp :=
  if st.accumulated_text.isEmpty then (st, [])
  else
    match st.message_id with
    | none => (st, [])
    | some mid =>
      let displayText := if isFinal then st.accumulated_text else st.accumulated_text ++ " ..."
      ({ st with last_sent_length := st.accumulated_text.length, last_update_time := now },
       [TgOp.editMessage mid displayText])

/-- Embedding of `TelegramStreamingHandler._maybe_update`: an edit is
attempted only when a message id exists, the time since the last update
reaches `update_interval_ms` and the characters accumulated since the
last sent length reach `min_chars_per_update` (both, a logical AND). -/
def maybeUpdate (cfg : StreamingConfig) (st : HandlerState) (now : Int) :
    HandlerState × List TgOp :=
  match st.message_id with
  | none => (st, [])
  | some _ =>
    let timeSinceUpdate : Int := now - st.last_update_time
    let charsSinceUpdate : Int := (st.accumulated_text.length : Int) - (st.last_sent_length : Int)
    if timeSinceUpdate ≥ cfg.update_interval_ms ∧ charsSinceUpdate ≥ cfg.min_chars_per_update then
      updateMessage st now false
    else (st, [])

/-- Embedding of `TelegramStreamingHandler.append` at time `now`:
concatenate the delta onto the accumulated text, then evaluate the update
gate. -/
def handlerAppend (cfg : StreamingConfig) (st : HandlerState) (now : Int) (text : String) :
    HandlerState × List TgOp :=
  maybeUpdate cfg { st with accumulated_text := st.accumulated_text ++ text } now

/-- Outcome the transport reports for finalize's rich-text edit:
accepted, rejected with a `BadRequest` whose message says the markup
cannot be parsed, or rejected with any other `BadRequest` (which finalize
only logs). -/
inductive EditOutcome where
  | ok
  | badRequestCantParse
  | badRequestOther

/-- Embedding of `TelegramStreamingHandler.finalize`: nothing happens
without a message id; empty accumulated text is replaced by the literal
`"No response generated."`; one final edit goes out with the requested
parse mode, retried once in plain mode when the markup cannot be parsed.
No outcome escapes as an exception. -/
def handlerFinalize (st : HandlerState) (parseMode : Option String := some "Markdown")
    (outcome : EditOutcome := .ok) : HandlerState × List TgOp :=
  match st.message_id with
  | none => (st, [])
  | some mid =>
    let st' :=
      if st.accumulated_text.isEmpty then
        { st with accumulated_text := "No response generated." }
      else st
    let firstOp := TgOp.finalEdit mid st'.accumulated_text parseMode
    match outcome with
    | .ok => (st', [firstOp])
    | .badRequestCantParse => (st', [firstOp, TgOp.finalEdit mid st'.accumulated_text none])
    | .badRequestOther => (st', [firstOp])

/-- Run a sequence of timestamped `append` calls against the controller,
collecting every transport operation issued. -/
def runAppends (cfg : StreamingConfig) : HandlerState → List (Int × String) →
    HandlerState × List TgOp
  | st, [] => (st, [])
  | st, (now, text) :: rest =>
    let (st', ops) := handlerAppend cfg st now text
    let (st'', ops') := runAppends cfg st' rest
    (st'', ops ++ ops')

/-- Whether a transport operation is a progress edit. -/
def TgOp.isEdit : TgOp → Bool
  | .editMessage _ _ => true
  | _ => false

/-- Number of progress edits among a list of transport operations. -/
def countEdits (ops : List TgOp) : Nat := (ops.filter TgOp.isEdit).length

/-- Whether a character is JSON whitespace. -/
def isWsChar (c : Char) : Bool := c = ' ' || c = '\n' || c = '\t' || c = '\r'

/-- Drop leading JSON whitespace. -/
def skipWs : List Char → List Char
  | [] => []
  | c :: rest => if isWsChar c then skipWs rest else c :: rest

/-- Decode one JSON string escape character (the character after a
backslash). -/
def unescapeChar (c : Char) : Option Char :=
  if c = '"' then some '"'
  else if c = '\\' then some '\\'
  else if c = '/' then some '/'
  else if c = 'n' then some '\n'
  else if c = 't' then some '\t'
  else if c = 'r' then some '\r'
  else if c = 'b' then some '\x08'
  else if c = 'f' then some '\x0c'
  else none

/-- Parse the body of a JSON string after its opening quote, returning
the decoded characters and the input after the closing quote. -/
def parseStringBody : List Char → Option (List Char × List Char)
  | [] => none
  | c :: rest =>
    if c = '"' then some ([], rest)
    else if c = '\\' then
      match rest with
      | [] => none
      | e :: rest' =>
        match unescapeChar e with
        | none => none
        | some d =>
          match parseStringBody rest' with
          | none => none
          | some (s, r) => some (d :: s, r)
    else
      match parseStringBody rest with
      | none => none
      | some (s, r) => some (c :: s, r)

/-- Numeric value of a decimal digit character. -/
def charVal (c : Char) : Nat := c.toNat - 48

/-- Consume leading decimal digits, accumulating their value. -/
def parseDigits : List Char → Nat → Nat × List Char
  | [], acc => (acc, [])
  | c :: rest, acc =>
    if c.isDigit then parseDigits rest (acc * 10 + charVal c) else (acc, c :: rest)

/-- Strip an expected literal character sequence from the input. -/
def dropLiteral : List Char → List Char → Option (List Char)
  | [], s => some s
  | _ :: _, [] => none
  | p :: ps, c :: s => if c = p then dropLiteral ps s else none

mutual
/-- Recursive-descent JSON parser, fuelled: `fuel` bounds the recursion
into nested values and list tails, and each level consumes one unit.
Returns the parsed value and the unconsumed input. -/
def parseValueFuel : Nat → List Char → Option (Value × List Char)
  | 0, _ => none
  | fuel + 1, s =>
    match skipWs s with
    | [] => none
    | c :: rest =>
      if c = '"' then
        match parseStringBody rest with
        | none => none
        | some (str, r) => some (.vstr str, r)
      else if c = 'n' then (dropLiteral ['u', 'l', 'l'] rest).map (fun r => (.vnull, r))
      else if c = 't' then (dropLiteral ['r', 'u', 'e'] rest).map (fun r => (.vbool true, r))
      else if c = 'f' then (dropLiteral ['a', 'l', 's', 'e'] rest).map (fun r => (.vbool false, r))
      else if c = '-' then
        match rest with
        | [] => none
        | d :: rest' =>
          if d.isDigit then
            let p := parseDigits rest' (charVal d)
            some (.vint (-(p.1 : Int)), p.2)
          else none
      else if c = '[' then
        match skipWs rest with
        | ']' :: r => some (.varr [], r)
        | s' => parseItemsFuel fuel s'
      else if c = '\x7b' then
        match skipWs rest with
        | '\x7d' :: r => some (.vobj [], r)
        | s' => parseEntriesFuel fuel s'
      else if c.isDigit then
        let p := parseDigits rest (charVal c)
        some (.vint (p.1 : Int), p.2)
      else none

/-- Parse the remaining elements of a non-empty JSON array, returning
them as a `Value.varr`. -/
def parseItemsFuel : Nat → List Char → Option (Value × List Char)
  | 0, _ => none
  | fuel + 1, s =>
    match parseValueFuel fuel s with
    | none => none
    | some (v, r) =>
      match skipWs r with
      | ',' :: r' =>
        match parseItemsFuel fuel r' with
        | some (.varr vs, r'') => some (.varr (v :: vs), r'')
        | _ => none
      | ']' :: r' => some (.varr [v], r')
      | _ => none

/-- Parse the remaining members of a non-empty JSON object, returning
them as a `Value.vobj`. -/
def parseEntriesFuel : Nat → List Char → Option (Value × List Char)
  | 0, _ => none
  | fuel + 1, s =>
    match skipWs s with
    | '"' :: r0 =>
      match parseStringBody r0 with
      | none => none
      | some (k, r1) =>
        match skipWs r1 with
        | ':' :: r2 =>
          match parseValueFuel fuel r2 with
          | none => none
          | some (v, r3) =>
            match skipWs r3 with
            | ',' :: r4 =>
              match parseEntriesFuel fuel r4 with
              | some (.vobj es, r5) => some (.vobj ((k, v) :: es), r5)
              | _ => none
            | '\x7d' :: r4 => some (.vobj [(k, v)], r4)
            | _ => none
        | _ => none
    | _ => none
end

/-- Parse a whole string as one JSON document: the single value with
nothing but whitespace after it.  The input's length plus one always
suffices as fuel. -/
def jsonParse (s : String) : Option Value :=
  match parseValueFuel (s.length + 1) s.data with
  | some (v, r) => if (skipWs r).isEmpty then some v else none
  | none => none

mutual
/-- Fuel requirement of a value for `parseValueFuel`: one unit per
parser-level recursion. -/
def sizeV : Value → Nat
  | .vnull => 1
  | .vbool _ => 1
  | .vint _ => 1
  | .vstr _ => 1
  | .varr [] => 1
  | .varr (v :: vs) => 1 + sizeL (v :: vs)
  | .vobj [] => 1
  | .vobj (e :: es) => 1 + sizeE (e :: es)

/-- Fuel requirement of an array's element list. -/
def sizeL : List Value → Nat
  | [] => 0
  | v :: vs => 1 + sizeV v + sizeL vs

/-- Fuel requirement of an object's entry list. -/
def sizeE : List (List Char × Value) → Nat
  | [] => 0
  | e :: es => 1 + sizeV e.2 + sizeE es
end

/-- Whether a character is printable ASCII; such characters survive the
serialize/parse round trip literally (modulo the quote and backslash
escapes both sides implement). -/
def plainChar (c : Char) : Bool := 32 ≤ c.toNat && c.toNat ≤ 126

mutual
/-- Whether every string (and object key) inside a value consists of
printable ASCII characters. -/
def plainV : Value → Bool
  | .vnull => true
  | .vbool _ => true
  | .vint _ => true
  | .vstr s => s.all plainChar
  | .varr l => plainL l
  | .vobj l => plainE l

/-- `plainV` over an array's elements. -/
def plainL : List Value → Bool
  | [] => true
  | v :: vs => plainV v && plainL vs

/-- `plainV` over an object's entries. -/
def plainE : List (List Char × Value) → Bool
  | [] => true
  | e :: es => e.1.all plainChar && plainV e.2 && plainE es
end

/-- Whether the input may safely follow a serialized value: it must not
begin with a digit (which would glue onto a serialized integer). -/
def delimOk : List Char → Bool
  | [] => true
  | c :: _ => !c.isDigit

/-- Whether a character list is all JSON whitespace. -/
def wsOnly (l : List Char) : Bool := l.all isWsChar

/-- Whether a block of messages matches a tool-call list positionally:
equal length, and the i-th message is a `tool`-role message whose
`tool_call_id` is the id of the i-th call. -/
def blockMatches (tcs : List ToolCall) (ms : List Message) : Bool :=
  ms.length == tcs.length &&
    (tcs.zip ms).all (fun p => p.2.role == "tool" && p.2.tool_call_id == some p.1.id)

/-- The tool-call correlation invariant on a message history: every
assistant message carrying tool calls is immediately followed by one
`tool`-role message per call, in order, each carrying the matching id. -/
def goodHistory : List Message → Bool
  | [] => true
  | m :: rest =>
    (if m.role == "assistant" && !m.tool_calls.isEmpty then
       blockMatches m.tool_calls (rest.take m.tool_calls.length)
     else true) && goodHistory rest

/-- Whether a payload is a scalar (not a `list` or `dict`) in the sense of
`ToolResult.to_message_content`'s branches. -/
def isScalar : Value → Bool
  | .vnull => true
  | .vbool _ => true
  | .vint _ => true
  | .vstr _ => true
  | .varr _ => false
  | .vobj _ => false

/-- Specification-level model of the streaming orchestration, written
from the amended description of the streaming path: each top-level chunk
is forwarded as it arrives while content and tool calls accumulate; after
a top-level terminal chunk with a non-empty accumulated tool-call list
the assistant turn and tool-result turns are appended, `provider.stream`
is re-invoked on the extended history, and the continuation's chunks are
forwarded verbatim (no terminal detection on them, no iteration cap). -/
def streamSpecModel (stream : StreamOracle) (reg : ToolRegistry) (msgs : List Message) :
    List StreamChunk → String → List ToolCall → List StreamChunk
  | [], _, _ => []
  | c :: rest, acc, tcs =>
    let accAll := acc ++ c.content
    let tcsAll := tcs ++ c.tool_calls
    if c.is_complete = true ∧ tcsAll.isEmpty = false then
      c :: ((execute_all reg tcsAll).map (fun r =>
          { content := "\n[Tool: " ++ r.1.name ++ " - " ++
              (if r.2.success then "completed" else "failed") ++ "]\n" : StreamChunk }) ++
        (stream ((msgs ++ [assistantMessage accAll tcsAll]) ++
            toolResultMessages (execute_all reg tcsAll)) (some reg.get_openai_schemas) ++
          streamSpecModel stream reg msgs rest accAll tcsAll))
    else c :: streamSpecModel stream reg msgs rest accAll tcsAll

/-- A registry with no tools registered. -/
def emptyRegistry : ToolRegistry := ⟨[]⟩

/-- Concrete tool call used by the streaming counterexample. -/
def tcT1 : ToolCall := ⟨"id1", "t1", []⟩

/-- Second concrete tool call, emitted by the continuation stream. -/
def tcT2 : ToolCall := ⟨"id2", "t2", []⟩

/-- Terminal chunk of the top-level stream, carrying `tcT1`. -/
def c2Chunk1 : StreamChunk := ⟨"Hello", [tcT1], none, true⟩

/-- Terminal chunk of the continuation stream, carrying `tcT2`. -/
def c2Chunk2 : StreamChunk := ⟨"World", [tcT2], none, true⟩

/-- Streaming oracle keyed on history length: the one-message initial
history gets a terminal chunk with a tool call; the three-message
extended history (initial + assistant + one tool result) gets a terminal
continuation chunk that again carries a tool call; any longer history
would answer with a distinctive `"THIRD"` chunk. -/
def c2Oracle : StreamOracle := fun ms _ =>
  if ms.length == 1 then [c2Chunk1]
  else if ms.length == 3 then [c2Chunk2]
  else [⟨"THIRD", [], none, true⟩]

/-- One-message request used by the streaming counterexample. -/
def c2Input : List DictMessage := [⟨"user", "hi"⟩]

/-- Non-streaming oracle that requests a tool call on every turn. -/
def c1Oracle : CompleteOracle := fun _ _ => ⟨"looping", [⟨"i", "t", []⟩], "tool_calls"⟩

/-- A tool whose body returns successfully. -/
def toolA : PyTool := fun _ => .ok ⟨true, .vstr ['A'], none⟩

/-- A tool whose body raises an exception with message `"boom"`. -/
def toolB : PyTool := fun _ => .error "boom"

/-- Another tool whose body returns successfully. -/
def toolC : PyTool := fun _ => .ok ⟨true, .vstr ['C'], none⟩

/-- Registry holding the three batch-example tools. -/
def regABC : ToolRegistry := ⟨[("a", toolA), ("b", toolB), ("c", toolC)]⟩

/-- Call to the succeeding tool `a`. -/
def tcA : ToolCall := ⟨"id_a", "a", []⟩

/-- Call to the raising tool `b`. -/
def tcB : ToolCall := ⟨"id_b", "b", []⟩

/-- Call to the succeeding tool `c`. -/
def tcC : ToolCall := ⟨"id_c", "c", []⟩

/-- The controller state right after `start` at time 0 with message id 1. -/
def c5Start : HandlerState := ⟨some 1, "", 0, 0⟩

/-- Twenty `append` calls of ten characters each, one every 100 ms for
two seconds (at times 100, 200, ..., 2000). -/
def c5Events : List (Int × String) :=
  (List.range 20).map (fun i => (100 * ((i : Int) + 1), "abcdefghij"))

/-- The mapping `\x7b"a": 1\x7d` of the round-trip example. -/
def objA1 : Value := .vobj [(['a'], .vint 1)]

/-! Theorems. -/

/-- C4: `execute_all` never raises (it is a total function into a result
list), returns one pair per input call in input order, pairing each
`ToolCall` with its own `ToolResult`; an unknown tool name or a raising
tool body yields a failed `ToolResult` with the error set, and each
call's result is computed from that call alone, so one failure cannot
affect its siblings. -/
theorem execute_all_isolates_failures :
    ∀ (reg : ToolRegistry) (tcs : List ToolCall),
      (execute_all reg tcs).length = tcs.length ∧
      (execute_all reg tcs).map Prod.fst = tcs ∧
      execute_all reg tcs = tcs.map (fun tc => (tc, execute_tool_call reg tc)) ∧
      (∀ tc : ToolCall, reg.get tc.name = none →
        execute_tool_call reg tc = ⟨false, .vnull, some ("Unknown tool: " ++ tc.name)⟩) ∧
      (∀ (tc : ToolCall) (tool : PyTool) (e : String), reg.get tc.name = some tool →
        tool tc.arguments = .error e → execute_tool_call reg tc = ⟨false, .vnull, some e⟩) := by
  intro reg tcs
  refine ⟨by simp [execute_all],
    by rw [execute_all, List.map_map]; exact List.map_id'' (fun x => rfl) tcs, rfl, ?_, ?_⟩
  · intro tc h
    simp [execute_tool_call, h]
  · intro tc tool e h he
    simp [execute_tool_call, h, he]

/-- Witness for C4: on the batch `[A, B, C]` where tool `b`'s body raises
`"boom"`, the result list keeps all three calls in order, `A` and `C`
succeed, and `B` alone fails with its error set. -/
theorem execute_all_isolates_failures_witness :
    execute_all regABC [tcA, tcB, tcC] =
      [(tcA, ⟨true, .vstr ['A'], none⟩), (tcB, ⟨false, .vnull, some "boom"⟩),
       (tcC, ⟨true, .vstr ['C'], none⟩)] ∧
    execute_tool_call regABC tcB = ⟨false, .vnull, some "boom"⟩ :=
  ⟨rfl, (execute_all_isolates_failures regABC [tcA, tcB, tcC]).2.2.2.2 tcB toolB "boom" rfl rfl⟩

/-- C9: before `start` has run (no message id), `append` only accumulates
the delta and issues no transport operation, and `finalize` returns
without issuing any transport operation; both are total functions, so
neither raises. -/
theorem unstarted_handler_no_transport :
    ∀ (cfg : StreamingConfig) (st : HandlerState) (now : Int) (text : String)
      (pm : Option String) (o : EditOutcome), st.message_id = none →
      handlerAppend cfg st now text =
        ({ st with accumulated_text := st.accumulated_text ++ text }, []) ∧
      handlerFinalize st pm o = (st, []) := by
  intro cfg st now text pm o h
  constructor
  · simp [handlerAppend, maybeUpdate, h]
  · simp [handlerFinalize, h]

/-- Witness for C9: a never-started controller holding `"x"` accumulates
an appended `"y"` with no transport operation, and finalizes with no
transport operation. -/
theorem unstarted_handler_no_transport_witness :
    handlerAppend ⟨500, 50⟩ ⟨none, "x", 5, 2⟩ 9999 "y" = (⟨none, "xy", 5, 2⟩, []) ∧
    handlerFinalize ⟨none, "x", 5, 2⟩ (some "Markdown") .ok = (⟨none, "x", 5, 2⟩, []) :=
  unstarted_handler_no_transport ⟨500, 50⟩ ⟨none, "x", 5, 2⟩ 9999 "y" (some "Markdown") .ok rfl

/-- C10: during streaming tool handling the service yields exactly one
synthetic chunk per executed tool call, in input order, whose content is
`"\n[Tool: name - completed]\n"` on success and `"\n[Tool: name -
failed]\n"` on failure (with empty tool-call list and `is_complete =
false`, so it cannot come from the provider), and every synthetic chunk
precedes every chunk of the continuation stream. -/
theorem streaming_tool_chunks_shape :
    ∀ (stream : StreamOracle) (reg : ToolRegistry) (msgs : List Message)
      (acc : String) (tcs : List ToolCall),
      handle_tool_calls_streaming stream reg msgs acc tcs =
        (tcs.map (fun tc =>
          ({ content := "\n[Tool: " ++ tc.name ++ " - " ++
              (if (execute_tool_call reg tc).success then "completed" else "failed") ++
              "]\n", tool_calls := [], finish_reason := none, is_complete := false } :
            StreamChunk))) ++
        stream (streamingExtendedHistory reg msgs acc tcs) (some reg.get_openai_schemas) := by
  intro stream reg msgs acc tcs
  simp [handle_tool_calls_streaming, execute_all, List.map_map, Function.comp]

/-- Content of the last system-role message of the extraction loop, given
the accumulator the loop starts from. -/
lemma extractSystemAux_fst (msgs : List Message) :
    ∀ (sys : Option String) (acc : List Message),
      (extractSystemAux msgs sys acc).1 =
        match (msgs.filter (fun m => m.role == "system")).getLast? with
        | some m => some m.content
        | none => sys := by
  induction msgs with
  | nil => intro sys acc; simp [extractSystemAux]
  | cons m rest ih =>
    intro sys acc
    cases h : (m.role == "system") with
    | true =>
      have hstep : extractSystemAux (m :: rest) sys acc = extractSystemAux rest (some m.content) acc := by
        simp [extractSystemAux, h]
      rw [hstep, ih]
      have hfilter : List.filter (fun m => m.role == "system") (m :: rest) =
          m :: List.filter (fun m => m.role == "system") rest := by
        simp [List.filter_cons, h]
      rw [hfilter]
      cases fr : (List.filter (fun m => m.role == "system") rest) with
      | nil => simp [List.getLast?]
      | cons b bs =>
        rw [List.getLast?_cons_cons]
        cases hbl : (b :: bs).getLast? with
        | none => exact absurd hbl (by simp [List.getLast?_eq_none_iff])
        | some x => rfl
    | false =>
      have hstep : extractSystemAux (m :: rest) sys acc = extractSystemAux rest sys (acc ++ [m]) := by
        simp [extractSystemAux, h]
      rw [hstep, ih]
      have hfilter : List.filter (fun m => m.role == "system") (m :: rest) =
          List.filter (fun m => m.role == "system") rest := by
        simp [List.filter_cons, h]
      rw [hfilter]

/-- The non-system messages the extraction loop keeps, in order, after
the accumulator it starts from. -/
lemma extractSystemAux_snd (msgs : List Message) :
    ∀ (sys : Option String) (acc : List Message),
      (extractSystemAux msgs sys acc).2 = acc ++ msgs.filter (fun m => !(m.role == "system")) := by
  induction msgs with
  | nil => intro sys acc; simp [extractSystemAux]
  | cons m rest ih =>
    intro sys acc
    cases h : (m.role == "system") with
    | true =>
      have hstep : extractSystemAux (m :: rest) sys acc = extractSystemAux rest (some m.content) acc := by
        simp [extractSystemAux, h]
      rw [hstep, ih]
      simp [List.filter_cons, h]
    | false =>
      have hstep : extractSystemAux (m :: rest) sys acc = extractSystemAux rest sys (acc ++ [m]) := by
        simp [extractSystemAux, h]
      rw [hstep, ih]
      simp [List.filter_cons, h]

/-- C6: `_extract_system_message` returns the content of the last
system-role message (or `none` when there is none) together with the
input list with every system-role message removed and all other messages
preserved in order; in particular `[system: "S", user: "U"]` maps to
`("S", [user: "U"])`. -/
theorem extract_system_message_spec :
    ∀ msgs : List Message,
      (extract_system_message msgs).1 =
        ((msgs.filter (fun m => m.role == "system")).getLast?).map (fun m => m.content) ∧
      (extract_system_message msgs).2 = msgs.filter (fun m => !(m.role == "system")) ∧
      extract_system_message [⟨"system", "S", [], none⟩, ⟨"user", "U", [], none⟩] =
        (some "S", [⟨"user", "U", [], none⟩]) := by
  intro msgs
  refine ⟨?_, ?_, rfl⟩
  · rw [extract_system_message, extractSystemAux_fst]
    cases (msgs.filter (fun m => m.role == "system")).getLast? <;> simp
  · rw [extract_system_message, extractSystemAux_snd]
    simp

/-- C5: a progress edit is attempted only when both gates hold — the time
elapsed since the last successful edit reaches `update_interval_ms` and
the characters accumulated since the last successful edit reach
`min_chars_per_update` (logical AND); and in the concrete scenario with
the default 500 ms / 50 char thresholds, twenty 10-character appends at
100 ms intervals over two seconds issue at most four edits. -/
theorem append_edit_gate :
    (∀ (cfg : StreamingConfig) (st : HandlerState) (now : Int) (text : String),
      (handlerAppend cfg st now text).2 ≠ [] →
      now - st.last_update_time ≥ cfg.update_interval_ms ∧
      ((st.accumulated_text ++ text).length : Int) - (st.last_sent_length : Int) ≥
        cfg.min_chars_per_update) ∧
    countEdits (runAppends ⟨500, 50⟩ c5Start c5Events).2 ≤ 4 := by
  constructor
  · intro cfg st now text hne
    rcases st with ⟨mid, accT, lut, lsl⟩
    cases mid with
    | none => simp [handlerAppend, maybeUpdate] at hne
    | some m =>
      simp only [handlerAppend, maybeUpdate] at hne
      split at hne
      · assumption
      · exact absurd rfl hne
  · decide

/-- Witness for C5: with the default thresholds, appending fifty
characters at time 500 to a freshly started controller issues an edit,
and the theorem then yields both gate conditions at that input. -/
theorem append_edit_gate_witness :
    (handlerAppend ⟨500, 50⟩ c5Start 500 "abcdefghijabcdefghijabcdefghijabcdefghijabcdefghij").2 ≠ [] ∧
    ((500 : Int) - c5Start.last_update_time ≥
        (⟨500, 50⟩ : StreamingConfig).update_interval_ms ∧
      ((c5Start.accumulated_text ++
          "abcdefghijabcdefghijabcdefghijabcdefghijabcdefghij").length : Int) -
        (c5Start.last_sent_length : Int) ≥ (⟨500, 50⟩ : StreamingConfig).min_chars_per_update) := by
  have hne : (handlerAppend ⟨500, 50⟩ c5Start 500
      "abcdefghijabcdefghijabcdefghijabcdefghijabcdefghij").2 ≠ [] := by decide
  exact ⟨hne, append_edit_gate.1 ⟨500, 50⟩ c5Start 500
    "abcdefghijabcdefghijabcdefghijabcdefghijabcdefghij" hne⟩

/-- Counterexample to C7 as stated: on a controller whose `start` never
ran, `finalize` with zero accumulated text returns having issued no
transport operation at all, so nothing — in particular not the literal
`"No response generated."` — is sent. -/
theorem finalize_unstarted_sends_nothing :
    handlerFinalize ⟨none, "", 0, 0⟩ (some "Markdown") .ok = (⟨none, "", 0, 0⟩, []) := rfl

/-- C7 (amended): whenever `finalize` runs with zero accumulated text on
a controller that has been started (a message id is recorded), it issues
at least one final edit and every final edit it issues carries exactly
the literal body `"No response generated."`; the function is total, so it
does not raise. -/
theorem finalize_empty_sends_placeholder :
    ∀ (st : HandlerState) (mid : Nat) (pm : Option String) (o : EditOutcome),
      st.message_id = some mid → st.accumulated_text = "" →
      (handlerFinalize st pm o).2 ≠ [] ∧
      ∀ op ∈ (handlerFinalize st pm o).2,
        ∃ pmode, op = TgOp.finalEdit mid "No response generated." pmode := by
  intro st mid pm o hmid hacc
  rcases st with ⟨m, a, t, l⟩
  simp only [] at hmid hacc
  subst hmid
  subst hacc
  cases o <;> simp [handlerFinalize, String.isEmpty]

/-- Witness for C7 (amended): a started controller with message id 3 and
no accumulated text issues exactly the placeholder edit. -/
theorem finalize_empty_sends_placeholder_witness :
    (handlerFinalize ⟨some 3, "", 7, 0⟩ (some "Markdown") .ok).2 ≠ [] ∧
    ∀ op ∈ (handlerFinalize ⟨some 3, "", 7, 0⟩ (some "Markdown") .ok).2,
      ∃ pmode, op = TgOp.finalEdit 3 "No response generated." pmode :=
  finalize_empty_sends_placeholder ⟨some 3, "", 7, 0⟩ 3 (some "Markdown") .ok rfl rfl

/-- The tool loop makes at most `fuel` further provider calls. -/
lemma loop_responses_length (complete : CompleteOracle) (reg : ToolRegistry) :
    ∀ (fuel : Nat) (msgs : List Message) (resp : CompletionResponse),
      (handleToolCallsLoop complete reg fuel msgs resp).responses.length ≤ fuel := by
  intro fuel
  induction fuel with
  | zero => intro msgs resp; simp [handleToolCallsLoop]
  | succ n ih =>
    intro msgs resp
    rw [handleToolCallsLoop]
    by_cases h : resp.tool_calls.isEmpty
    · simp [h]
    · simp only [h, if_false, Bool.false_eq_true, List.length_cons]
      exact Nat.succ_le_succ (ih _ _)

/-- The loop's final response is the last response it received, or the
response it started from when it received none. -/
lemma loop_final_getLastD (complete : CompleteOracle) (reg : ToolRegistry) :
    ∀ (fuel : Nat) (msgs : List Message) (resp : CompletionResponse),
      (handleToolCallsLoop complete reg fuel msgs resp).final =
        ((handleToolCallsLoop complete reg fuel msgs resp).responses).getLastD resp := by
  intro fuel
  induction fuel with
  | zero => intro msgs resp; simp [handleToolCallsLoop, List.getLastD]
  | succ n ih =>
    intro msgs resp
    rw [handleToolCallsLoop]
    by_cases h : resp.tool_calls.isEmpty
    · simp [h, List.getLastD]
    · simp only [h, if_false, Bool.false_eq_true, List.getLastD_cons]
      exact ih _ _

/-- C1: when the provider answers every turn with a non-empty tool-call
list, `get_response` calls `provider.complete` at most
`max_tool_iterations + 1` times in total, terminates (the embedding is a
total function, and the cap raises nothing), and returns the content of
the last `CompletionResponse` seen. -/
theorem get_response_tool_loop_bound :
    ∀ (maxToolIterations : Nat) (complete : CompleteOracle) (registry : Option ToolRegistry)
      (toolsEnabled supportsTools useTools : Bool) (messages : List DictMessage),
      (∀ (ms : List Message) (ts : Option (List String)),
        ((complete ms ts).tool_calls).isEmpty = false) →
      (getResponseTrace maxToolIterations complete registry toolsEnabled supportsTools useTools
          messages).responses.length ≤ maxToolIterations + 1 ∧
      (getResponseTrace maxToolIterations complete registry toolsEnabled supportsTools useTools
          messages).result =
        ((getResponseTrace maxToolIterations complete registry toolsEnabled supportsTools useTools
            messages).responses.getLastD ⟨"", [], "stop"⟩).content := by
  intro maxIter complete registry te st ut msgs h
  cases registry with
  | none =>
    constructor
    · simp [getResponseTrace]
    · simp [getResponseTrace, List.getLastD]
  | some reg =>
    have hr := h (convert_dict_messages msgs)
      (if ut then get_tools (some reg) te st else none)
    simp only [getResponseTrace, hr, if_false, Bool.false_eq_true]
    constructor
    · simpa using Nat.succ_le_succ (loop_responses_length complete reg maxIter _ _)
    · simp only [List.getLastD_cons]
      rw [loop_final_getLastD complete reg maxIter _ _]

/-- Witness for C1: a provider that requests a tool call on every turn,
run with `max_tool_iterations = 2`, makes at most three provider calls
and returns the last response's content. -/
theorem get_response_tool_loop_bound_witness :
    (∀ (ms : List Message) (ts : Option (List String)),
      ((c1Oracle ms ts).tool_calls).isEmpty = false) ∧
    (getResponseTrace 2 c1Oracle (some emptyRegistry) true true true
        [⟨"user", "hi"⟩]).responses.length ≤ 3 ∧
    (getResponseTrace 2 c1Oracle (some emptyRegistry) true true true [⟨"user", "hi"⟩]).result =
      ((getResponseTrace 2 c1Oracle (some emptyRegistry) true true true
          [⟨"user", "hi"⟩]).responses.getLastD ⟨"", [], "stop"⟩).content :=
  ⟨fun _ _ => rfl,
   get_response_tool_loop_bound 2 c1Oracle (some emptyRegistry) true true true
     [⟨"user", "hi"⟩] (fun _ _ => rfl)⟩

/-- The tool-result messages built from one executed batch match the
batch's tool calls positionally. -/
lemma blockMatches_toolResultMessages (reg : ToolRegistry) (tcs : List ToolCall) :
    blockMatches tcs (toolResultMessages (execute_all reg tcs)) = true := by
  induction tcs with
  | nil => rfl
  | cons tc rest ih =>
    simp only [blockMatches, toolResultMessages, execute_all, List.map_map, List.map_cons,
      List.length_cons, List.zip_cons_cons, List.all_cons] at ih ⊢
    simpa using ih

/-- Histories whose assistant blocks are complete compose: the invariant
survives appending another invariant-satisfying history. -/
lemma goodHistory_append : ∀ xs ys : List Message,
    goodHistory xs = true → goodHistory ys = true → goodHistory (xs ++ ys) = true := by
  intro xs
  induction xs with
  | nil => intro ys _ hy; simpa
  | cons m xs ih =>
    intro ys hx hy
    rw [goodHistory, Bool.and_eq_true] at hx
    rw [List.cons_append, goodHistory, Bool.and_eq_true]
    refine ⟨?_, ih ys hx.2 hy⟩
    rcases hx with ⟨hx1, _⟩
    cases hcase : (m.role == "assistant" && !m.tool_calls.isEmpty) with
    | false => simp [hcase]
    | true =>
      rw [hcase] at hx1
      simp only [if_true] at hx1 ⊢
      have hlen : m.tool_calls.length ≤ xs.length := by
        rw [blockMatches, Bool.and_eq_true] at hx1
        have := hx1.1
        simp only [beq_iff_eq, List.length_take] at this
        omega
      rw [List.take_append_of_le_length hlen]
      exact hx1

/-- A history whose messages all carry no tool calls satisfies the
invariant vacuously. -/
lemma goodHistory_of_empty_tool_calls : ∀ ms : List Message,
    (∀ m ∈ ms, m.tool_calls = []) → goodHistory ms = true := by
  intro ms
  induction ms with
  | nil => intro; rfl
  | cons m rest ih =>
    intro h
    have hm : m.tool_calls = [] := h m (by simp)
    rw [goodHistory, Bool.and_eq_true]
    refine ⟨by simp [hm], ih (fun x hx => h x (by simp [hx]))⟩

/-- Converted caller messages carry no tool calls, so they satisfy the
invariant. -/
lemma goodHistory_convert (ds : List DictMessage) :
    goodHistory (convert_dict_messages ds) = true := by
  apply goodHistory_of_empty_tool_calls
  intro m hm
  rw [convert_dict_messages] at hm
  obtain ⟨d, _, rfl⟩ := List.mem_map.1 hm
  rfl

/-- One appended block — the assistant turn followed by its tool-result
messages — satisfies the invariant. -/
lemma goodHistory_block (reg : ToolRegistry) (content : String) (tcs : List ToolCall) :
    goodHistory ([assistantMessage content tcs] ++
      toolResultMessages (execute_all reg tcs)) = true := by
  rw [List.singleton_append, goodHistory, Bool.and_eq_true]
  constructor
  · cases tcs with
    | nil => simp [assistantMessage]
    | cons tc rest =>
      have hcond : ((assistantMessage content (tc :: rest)).role == "assistant" &&
          !(assistantMessage content (tc :: rest)).tool_calls.isEmpty) = true := by
        simp [assistantMessage]
      simp only [hcond, eq_self_iff_true, if_true]
      have hlen : (toolResultMessages (execute_all reg (tc :: rest))).length =
          (assistantMessage content (tc :: rest)).tool_calls.length := by
        simp [toolResultMessages, execute_all, assistantMessage]
      rw [show (assistantMessage content (tc :: rest)).tool_calls = tc :: rest from rfl]
      rw [show (assistantMessage content (tc :: rest)).tool_calls = tc :: rest from rfl] at hlen
      rw [← hlen, List.take_length]
      exact blockMatches_toolResultMessages reg (tc :: rest)
  · apply goodHistory_of_empty_tool_calls
    intro m hm
    rw [toolResultMessages] at hm
    obtain ⟨r, _, rfl⟩ := List.mem_map.1 hm
    rfl

/-- Every history the tool loop sends to the provider, and the loop's
final history, satisfy the invariant, provided the starting history
does. -/
lemma loop_histories_good (complete : CompleteOracle) (reg : ToolRegistry) :
    ∀ (fuel : Nat) (msgs : List Message) (resp : CompletionResponse),
      goodHistory msgs = true →
      (handleToolCallsLoop complete reg fuel msgs resp).histories.all goodHistory = true ∧
      goodHistory (handleToolCallsLoop complete reg fuel msgs resp).finalMessages = true := by
  intro fuel
  induction fuel with
  | zero => intro msgs resp h; exact ⟨rfl, h⟩
  | succ n ih =>
    intro msgs resp h
    rw [handleToolCallsLoop]
    by_cases he : resp.tool_calls.isEmpty
    · simp only [he, if_true]
      exact ⟨rfl, h⟩
    · simp only [he, if_false, Bool.false_eq_true, List.all_cons]
      have hgood : goodHistory ((msgs ++ [assistantMessage resp.content resp.tool_calls]) ++
          toolResultMessages (execute_all reg resp.tool_calls)) = true := by
        rw [List.append_assoc]
        exact goodHistory_append msgs _ h (goodHistory_block reg resp.content resp.tool_calls)
      have := ih
        ((msgs ++ [assistantMessage resp.content resp.tool_calls]) ++
          toolResultMessages (execute_all reg resp.tool_calls))
        (complete ((msgs ++ [assistantMessage resp.content resp.tool_calls]) ++
          toolResultMessages (execute_all reg resp.tool_calls)) (some reg.get_openai_schemas))
        hgood
      exact ⟨by rw [Bool.and_eq_true]; exact ⟨hgood, this.1⟩, this.2⟩

/-- C3: in every message history built by the tool-call loop (each
history sent to the provider inside the loop and the loop's final
history), and likewise in the history the streaming handler builds, every
assistant message carrying tool calls is immediately followed by one
`tool`-role message per call whose `tool_call_id` is the id of the
corresponding `ToolCall`, position by position. -/
theorem tool_loop_history_invariant :
    ∀ (maxToolIterations : Nat) (complete : CompleteOracle) (reg : ToolRegistry)
      (toolsEnabled supportsTools useTools : Bool) (messages : List DictMessage)
      (reg' : ToolRegistry) (ds : List DictMessage) (acc : String) (tcs : List ToolCall),
      (getResponseTrace maxToolIterations complete (some reg) toolsEnabled supportsTools useTools
          messages).loopHistories.all goodHistory = true ∧
      goodHistory (getResponseTrace maxToolIterations complete (some reg) toolsEnabled
          supportsTools useTools messages).finalMessages = true ∧
      goodHistory (streamingExtendedHistory reg' (convert_dict_messages ds) acc tcs) = true := by
  intro maxIter complete reg te st ut messages reg' ds acc tcs
  have hconv := goodHistory_convert messages
  refine ⟨?_, ?_, ?_⟩
  · rw [getResponseTrace]
    by_cases he : (complete (convert_dict_messages messages)
        (if ut then get_tools (some reg) te st else none)).tool_calls.isEmpty
    · simp only [he, if_true]; rfl
    · simp only [he, if_false, Bool.false_eq_true]
      exact (loop_histories_good complete reg maxIter _ _ hconv).1
  · rw [getResponseTrace]
    by_cases he : (complete (convert_dict_messages messages)
        (if ut then get_tools (some reg) te st else none)).tool_calls.isEmpty
    · simp only [he, if_true]; exact hconv
    · simp only [he, if_false, Bool.false_eq_true]
      exact (loop_histories_good complete reg maxIter _ _ hconv).2
  · rw [streamingExtendedHistory, List.append_assoc]
    exact goodHistory_append _ _ (goodHistory_convert ds) (goodHistory_block reg' acc tcs)

/-- Counterexample to C2 as stated: an oracle whose continuation stream
ends with a terminal chunk carrying tool call `t2`.  The claim's
"same terminal-detection rule" would require `t2` to be executed (its
synthetic `[Tool: t2 - ...]` chunk yielded) and a further
`provider.stream` call to be made (whose distinctive `"THIRD"` chunk
would be forwarded); the code forwards the continuation's chunks
verbatim, so the output is exactly three chunks: the top-level terminal
chunk, the synthetic chunk for `t1`, and the continuation chunk — with no
trace of `t2`'s execution and no third stream call. -/
theorem stream_response_no_recursion_counterexample :
    stream_response c2Oracle (some emptyRegistry) true true true c2Input =
      [c2Chunk1, ⟨"\n[Tool: t1 - failed]\n", [], none, false⟩, c2Chunk2] ∧
    ((stream_response c2Oracle (some emptyRegistry) true true true c2Input).countP
      (fun c => c.content == "\n[Tool: t2 - failed]\n" ||
        c.content == "\n[Tool: t2 - completed]\n")) = 0 ∧
    ((stream_response c2Oracle (some emptyRegistry) true true true c2Input).countP
      (fun c => c.content == "THIRD")) = 0 :=
  ⟨rfl, rfl, rfl⟩

/-- The embedded streaming loop coincides with the specification-level
model of the amended streaming claim. -/
lemma streamResponseAux_eq_spec (stream : StreamOracle) (reg : ToolRegistry)
    (msgs : List Message) : ∀ (chunks : List StreamChunk) (acc : String) (tcs : List ToolCall),
      streamResponseAux stream (some reg) msgs chunks acc tcs =
        streamSpecModel stream reg msgs chunks acc tcs := by
  intro chunks
  induction chunks with
  | nil => intro acc tcs; rfl
  | cons c rest ih =>
    intro acc tcs
    by_cases h : c.is_complete = true ∧ (tcs ++ c.tool_calls).isEmpty = false
    · have hb : (c.is_complete && !(tcs ++ c.tool_calls).isEmpty) = true := by
        rw [Bool.and_eq_true]
        exact ⟨h.1, by rw [h.2]; rfl⟩
      rw [streamResponseAux, streamSpecModel]
      simp only [hb, if_true, if_pos h, ih]
      rw [handle_tool_calls_streaming, streamingExtendedHistory]
      simp [List.append_assoc]
    · have hb : (c.is_complete && !(tcs ++ c.tool_calls).isEmpty) = false := by
        cases hic : c.is_complete with
        | false => simp
        | true =>
          cases hie : (tcs ++ c.tool_calls).isEmpty with
          | false => exact absurd ⟨hic, hie⟩ h
          | true => simp [hie]
      rw [streamResponseAux, streamSpecModel]
      simp only [hb, Bool.false_eq_true, if_false, if_neg h, ih, List.nil_append]

/-- C2 (amended): for every streaming request, whenever a chunk of the
top-level provider stream with `is_complete` is observed and the
accumulated tool-call list is non-empty, `stream_response` appends the
assistant turn and tool-result turns, re-invokes `provider.stream` with
the extended history, and forwards the continuation's chunks verbatim —
terminal detection applies only to top-level chunks, so tool calls
emitted at a continuation's terminal chunk are not executed and trigger
no further `provider.stream` call — and no `max_tool_iterations` cap is
applied anywhere on this path (the model has no iteration bound). -/
theorem stream_response_spec_model :
    ∀ (stream : StreamOracle) (reg : ToolRegistry) (toolsEnabled supportsTools useTools : Bool)
      (messages : List DictMessage),
      stream_response stream (some reg) toolsEnabled supportsTools useTools messages =
        streamSpecModel stream reg (convert_dict_messages messages)
          (stream (convert_dict_messages messages)
            (if useTools then get_tools (some reg) toolsEnabled supportsTools else none)) "" [] := by
  intro stream reg te st ut ds
  rw [stream_response]
  exact streamResponseAux_eq_spec stream reg _ _ "" []

/-- Decimal digits of a natural number start with a digit character and
consist of digit characters throughout. -/
lemma natToChars_head_digits (n : Nat) :
    ∃ (d : Nat) (ds : List Char), natToChars n = digitChar d :: ds ∧ d < 10 ∧
      ds.all Char.isDigit = true := by
  induction n using Nat.strong_induction_on with
  | _ n ih =>
    rw [natToChars]
    by_cases h : n < 10
    · exact ⟨n, [], by rw [if_pos h], h, rfl⟩
    · rw [if_neg h]
      obtain ⟨d, ds, heq, hd, hds⟩ := ih (n / 10) (Nat.div_lt_self (by omega) (by omega))
      refine ⟨d, ds ++ [digitChar (n % 10)], by rw [heq]; rfl, hd, ?_⟩
      rw [List.all_append, hds]
      have h10 : n % 10 < 10 := Nat.mod_lt _ (by omega)
      have : (digitChar (n % 10)).isDigit = true := by interval_cases hm : (n % 10) <;> decide
      simp [this]

/-- Consuming serialized digits followed by a non-digit accumulates their
decimal value. -/
lemma parseDigits_append (ds : List Char) : ∀ (acc : Nat) (rest : List Char),
    ds.all Char.isDigit = true → delimOk rest = true →
    parseDigits (ds ++ rest) acc = (ds.foldl (fun a c => a * 10 + charVal c) acc, rest) := by
  induction ds with
  | nil =>
    intro acc rest _ hrest
    cases rest with
    | nil => rfl
    | cons c r =>
      rw [delimOk] at hrest
      simp only [List.nil_append, List.foldl_nil, parseDigits]
      rw [if_neg (by simpa using hrest)]
  | cons d ds ih =>
    intro acc rest hall hrest
    rw [List.all_cons, Bool.and_eq_true] at hall
    simp only [List.cons_append, parseDigits, List.foldl_cons]
    rw [if_pos hall.1]
    exact ih _ rest hall.2 hrest

/-- Folding the digit-accumulation step over a number's decimal digits
recovers the number (shifted past any prior accumulator). -/
lemma natToChars_foldl (n : Nat) : ∀ acc : Nat,
    (natToChars n).foldl (fun a c => a * 10 + charVal c) acc =
      acc * 10 ^ (natToChars n).length + n := by
  induction n using Nat.strong_induction_on with
  | _ n ih =>
    intro acc
    rw [natToChars]
    by_cases h : n < 10
    · rw [if_pos h]
      have hcv : charVal (digitChar n) = n := by interval_cases n <;> decide
      simp [hcv]
    · rw [if_neg h]
      rw [List.foldl_append, ih (n / 10) (Nat.div_lt_self (by omega) (by omega)) acc]
      have hcv : charVal (digitChar (n % 10)) = n % 10 := by
        have h10 : n % 10 < 10 := Nat.mod_lt _ (by omega)
        interval_cases hm : (n % 10) <;> decide
      simp only [List.foldl_cons, List.foldl_nil, List.length_append, List.length_cons,
        List.length_nil, hcv]
      rw [pow_succ]
      generalize (10 : Nat) ^ (natToChars (n / 10)).length = P
      have hdm := Nat.div_add_mod n 10
      have : acc * (P * 10) = acc * P * 10 := by ring
      omega

/-- Skipping whitespace passes over an all-whitespace prefix. -/
lemma skipWs_wsOnly_append (pre : List Char) (h : wsOnly pre = true) (s : List Char) :
    skipWs (pre ++ s) = skipWs s := by
  induction pre with
  | nil => rfl
  | cons c cs ih =>
    rw [wsOnly, List.all_cons, Bool.and_eq_true] at h
    rw [List.cons_append, skipWs, if_pos h.1]
    exact ih h.2

/-- Skipping whitespace is idempotent. -/
lemma skipWs_idem (s : List Char) : skipWs (skipWs s) = skipWs s := by
  induction s with
  | nil => rfl
  | cons c cs ih =>
    rw [skipWs]
    by_cases h : isWsChar c = true
    · rw [if_pos h]; exact ih
    · rw [if_neg h, skipWs, if_neg h]

/-- A serialized value starts with a non-whitespace character that is
neither a closing bracket nor a closing brace. -/
lemma serValue_head_facts (v : Value) (lvl : Nat) :
    ∃ c t, serValue v lvl = c :: t ∧ isWsChar c = false ∧ c ≠ ']' ∧ c ≠ '\x7d' ∧ c ≠ ',' := by
  cases v with
  | vnull => exact ⟨'n', _, rfl, by decide, by decide, by decide, by decide⟩
  | vbool b => cases b with
    | true => exact ⟨'t', _, rfl, by decide, by decide, by decide, by decide⟩
    | false => exact ⟨'f', _, rfl, by decide, by decide, by decide, by decide⟩
  | vint k =>
    rw [serValue, intToChars]
    by_cases h : k < 0
    · exact ⟨'-', _, by rw [if_pos h], by decide, by decide, by decide, by decide⟩
    · rw [if_neg h]
      obtain ⟨d, ds, heq, hd, _⟩ := natToChars_head_digits k.natAbs
      rw [heq]
      refine ⟨digitChar d, ds, rfl, ?_, ?_, ?_, ?_⟩ <;> interval_cases d <;> decide
  | vstr s => exact ⟨'"', _, rfl, by decide, by decide, by decide, by decide⟩
  | varr l => cases l with
    | nil => exact ⟨'[', _, rfl, by decide, by decide, by decide, by decide⟩
    | cons v vs => exact ⟨'[', _, rfl, by decide, by decide, by decide, by decide⟩
  | vobj l => cases l with
    | nil => exact ⟨'\x7b', _, rfl, by decide, by decide, by decide, by decide⟩
    | cons e es => exact ⟨'\x7b', _, rfl, by decide, by decide, by decide, by decide⟩

/-- Skipping whitespace in front of a serialized value changes nothing. -/
lemma skipWs_serValue (v : Value) (lvl : Nat) (rest : List Char) :
    skipWs (serValue v lvl ++ rest) = serValue v lvl ++ rest := by
  obtain ⟨c, t, heq, hws, _, _, _⟩ := serValue_head_facts v lvl
  rw [heq, List.cons_append, skipWs, if_neg (by rw [hws]; exact Bool.false_ne_true)]

/-- The value parser only looks at its input through `skipWs`. -/
lemma parseValueFuel_skipWs (fuel : Nat) (s : List Char) :
    parseValueFuel fuel (skipWs s) = parseValueFuel fuel s := by
  cases fuel with
  | zero => rfl
  | succ f =>
    rw [parseValueFuel, parseValueFuel, skipWs_idem]

/-- The array-tail parser only looks at its input through `skipWs`. -/
lemma parseItemsFuel_skipWs (fuel : Nat) (s : List Char) :
    parseItemsFuel fuel (skipWs s) = parseItemsFuel fuel s := by
  cases fuel with
  | zero => rfl
  | succ f =>
    rw [parseItemsFuel, parseItemsFuel, parseValueFuel_skipWs]

/-- The object-tail parser only looks at its input through `skipWs`. -/
lemma parseEntriesFuel_skipWs (fuel : Nat) (s : List Char) :
    parseEntriesFuel fuel (skipWs s) = parseEntriesFuel fuel s := by
  cases fuel with
  | zero => rfl
  | succ f =>
    rw [parseEntriesFuel, parseEntriesFuel, skipWs_idem]

/-- Parsing a serialized integer followed by a non-digit recovers the
integer. -/
lemma parseValueFuel_intToChars (k : Int) (fuel : Nat) (rest : List Char)
    (hrest : delimOk rest = true) :
    parseValueFuel (fuel + 1) (intToChars k ++ rest) = some (.vint k, rest) := by
  rw [intToChars]
  by_cases hneg : k < 0
  · rw [if_pos hneg]
    obtain ⟨d, ds, heq, hd, hds⟩ := natToChars_head_digits k.natAbs
    rw [heq]
    rw [parseValueFuel]
    have hskip : skipWs (('-' :: (digitChar d :: ds)) ++ rest) =
        '-' :: ((digitChar d :: ds) ++ rest) := by
      rw [List.cons_append, skipWs, if_neg (by decide)]
    rw [hskip]
    have hdig : (digitChar d).isDigit = true := by interval_cases d <;> decide
    have hcv : charVal (digitChar d) = d := by interval_cases d <;> decide
    have hpd := parseDigits_append ds (charVal (digitChar d)) rest hds hrest
    have hfold : ds.foldl (fun a c => a * 10 + charVal c) (charVal (digitChar d)) = k.natAbs := by
      have := natToChars_foldl k.natAbs 0
      rw [heq] at this
      simpa [hcv] using this
    simp [hdig, hpd, hfold, show -((k.natAbs : Nat) : Int) = k from by omega]
    rw [abs_of_neg hneg, neg_neg]
  · rw [if_neg hneg]
    obtain ⟨d, ds, heq, hd, hds⟩ := natToChars_head_digits k.natAbs
    rw [heq]
    rw [parseValueFuel]
    have hdig : (digitChar d).isDigit = true := by interval_cases d <;> decide
    have hcv : charVal (digitChar d) = d := by interval_cases d <;> decide
    have hws : isWsChar (digitChar d) = false := by interval_cases d <;> decide
    have hne : (digitChar d ≠ '"') ∧ (digitChar d ≠ 'n') ∧ (digitChar d ≠ 't') ∧
        (digitChar d ≠ 'f') ∧ (digitChar d ≠ '-') ∧ (digitChar d ≠ '[') ∧
        (digitChar d ≠ '\x7b') := by
      refine ⟨?_, ?_, ?_, ?_, ?_, ?_, ?_⟩ <;> interval_cases d <;> decide
    have hskip : skipWs ((digitChar d :: ds) ++ rest) = digitChar d :: (ds ++ rest) := by
      rw [List.cons_append, skipWs, if_neg (by rw [hws]; exact Bool.false_ne_true)]
    rw [hskip]
    have hpd := parseDigits_append ds (charVal (digitChar d)) rest hds hrest
    have hfold : ds.foldl (fun a c => a * 10 + charVal c) (charVal (digitChar d)) = k.natAbs := by
      have := natToChars_foldl k.natAbs 0
      rw [heq] at this
      simpa [hcv] using this
    simp [hne.1, hne.2.1, hne.2.2.1, hne.2.2.2.1, hne.2.2.2.2.1, hne.2.2.2.2.2.1,
      hne.2.2.2.2.2.2, hdig, hpd, hfold, show ((k.natAbs : Nat) : Int) = k from by omega]

/-- A printable ASCII character other than the quote and the backslash is
emitted literally by the JSON string escaper. -/
lemma escapeChar_plain {c : Char} (h : plainChar c = true) (h1 : c ≠ '"') (h2 : c ≠ '\\') :
    escapeChar c = [c] := by
  have hn : 32 ≤ c.toNat ∧ c.toNat ≤ 126 := by
    simpa [plainChar, Bool.and_eq_true, decide_eq_true_eq] using h
  have h3 : c ≠ '\n' := by intro hh; subst hh; exact absurd h (by decide)
  have h4 : c ≠ '\t' := by intro hh; subst hh; exact absurd h (by decide)
  have h5 : c ≠ '\r' := by intro hh; subst hh; exact absurd h (by decide)
  have h6 : c ≠ '\x08' := by intro hh; subst hh; exact absurd h (by decide)
  have h7 : c ≠ '\x0c' := by intro hh; subst hh; exact absurd h (by decide)
  rw [escapeChar, if_neg h1, if_neg h2, if_neg h3, if_neg h4, if_neg h5, if_neg h6, if_neg h7,
    if_neg (by omega), if_pos (by omega)]

/-- Parsing the escaped body of a printable-ASCII string, followed by the
closing quote, recovers the string. -/
lemma parseStringBody_encodeBody (s : List Char) (h : s.all plainChar = true) (rest : List Char) :
    parseStringBody (encodeBody s ++ ('"' :: rest)) = some (s, rest) := by
  induction s with
  | nil =>
    rw [encodeBody, List.nil_append, parseStringBody.eq_def]
    simp
  | cons c cs ih =>
    rw [List.all_cons, Bool.and_eq_true] at h
    rw [encodeBody, List.append_assoc]
    by_cases h1 : c = '"'
    · subst h1
      rw [show escapeChar '"' = ['\\', '"'] from by decide]
      rw [parseStringBody.eq_def]
      simp [unescapeChar, ih h.2]
    · by_cases h2 : c = '\\'
      · subst h2
        rw [show escapeChar '\\' = ['\\', '\\'] from by decide]
        rw [parseStringBody.eq_def]
        simp [unescapeChar, ih h.2]
      · rw [escapeChar_plain h.1 h1 h2]
        rw [List.singleton_append, parseStringBody.eq_def]
        simp [h1, h2, ih h.2]

/-- Structural induction for the nested inductive `Value`, with
membership hypotheses for array elements and object entries. -/
theorem Value.inductionOn {P : Value → Prop}
    (hnull : P .vnull) (hbool : ∀ b, P (.vbool b)) (hint : ∀ n, P (.vint n))
    (hstr : ∀ s, P (.vstr s))
    (harr : ∀ l, (∀ v ∈ l, P v) → P (.varr l))
    (hobj : ∀ l, (∀ kv ∈ l, P kv.2) → P (.vobj l)) : ∀ v, P v := by
  have main : ∀ (n : Nat) (v : Value), sizeOf v ≤ n → P v := by
    intro n
    induction n with
    | zero =>
      intro v hv
      cases v <;> simp at hv
    | succ n ih =>
      intro v hv
      cases v with
      | vnull => exact hnull
      | vbool b => exact hbool b
      | vint k => exact hint k
      | vstr s => exact hstr s
      | varr l =>
        refine harr l (fun x hx => ih x ?_)
        have h1 := List.sizeOf_lt_of_mem hx
        simp only [Value.varr.sizeOf_spec] at hv
        omega
      | vobj l =>
        refine hobj l (fun kv hkv => ih kv.2 ?_)
        have h1 := List.sizeOf_lt_of_mem hkv
        have h2 : sizeOf kv.2 < sizeOf kv := by
          cases kv with
          | mk a b => simp
        simp only [Value.vobj.sizeOf_spec] at hv
        omega
  intro v
  exact main (sizeOf v) v (Nat.le_refl _)

/-- Array elements of a plain value are plain. -/
lemma plainL_mem : ∀ (l : List Value), plainL l = true → ∀ v ∈ l, plainV v = true := by
  intro l
  induction l with
  | nil => intro _ v hv; cases hv
  | cons x xs ih =>
    intro h v hv
    rw [plainL, Bool.and_eq_true] at h
    rcases hv with _ | hv
    · exact h.1
    · exact ih h.2 v (by assumption)

/-- Object entries of a plain value have plain keys and plain values. -/
lemma plainE_mem : ∀ (l : List (List Char × Value)), plainE l = true →
    ∀ kv ∈ l, kv.1.all plainChar = true ∧ plainV kv.2 = true := by
  intro l
  induction l with
  | nil => intro _ kv hkv; cases hkv
  | cons x xs ih =>
    intro h kv hkv
    rw [plainE, Bool.and_eq_true] at h
    rw [Bool.and_eq_true] at h
    rcases hkv with _ | hkv
    · exact ⟨h.1.1, h.1.2⟩
    · exact ih h.2 kv (by assumption)

/-- Every value needs at least one unit of parser fuel. -/
lemma sizeV_pos : ∀ v : Value, 1 ≤ sizeV v := by
  intro v
  cases v with
  | varr l => cases l <;> simp [sizeV]
  | vobj l => cases l <;> simp [sizeV]
  | vnull => simp [sizeV]
  | vbool b => simp [sizeV]
  | vint k => simp [sizeV]
  | vstr s => simp [sizeV]

/-- Indentation is all whitespace. -/
lemma wsOnly_indentChars (n : Nat) : wsOnly (indentChars n) = true := by
  rw [wsOnly, indentChars]
  rw [List.all_eq_true]
  intro x hx
  rw [List.eq_of_mem_replicate hx]
  decide

/-- Parsing the serialized elements of a non-empty array, followed by a
closing delimiter that whitespace-reduces to `]`, recovers the array.
The element-level hypothesis is the induction hypothesis of the main
round-trip lemma. -/
lemma parseItemsFuel_serItems :
    ∀ (l : List Value), l ≠ [] →
      (∀ v ∈ l, plainV v = true →
        ∀ (fuel lvl : Nat) (pre rest : List Char), wsOnly pre = true → delimOk rest = true →
          sizeV v ≤ fuel → parseValueFuel fuel (pre ++ (serValue v lvl ++ rest)) = some (v, rest)) →
      plainL l = true →
      ∀ (fuel lvl : Nat) (close rest : List Char),
        sizeL l ≤ fuel → delimOk close = true → skipWs close = ']' :: rest →
        parseItemsFuel fuel (serItems l lvl ++ close) = some (.varr l, rest) := by
  intro l
  induction l with
  | nil => intro hne; exact absurd rfl hne
  | cons v vs ih =>
    intro _ hP hpl fuel lvl close rest hfuel hdel hclose
    rw [plainL, Bool.and_eq_true] at hpl
    have hszv : 1 ≤ sizeV v := sizeV_pos v
    rw [sizeL] at hfuel
    cases fuel with
    | zero => omega
    | succ f =>
      rw [parseItemsFuel]
      cases vs with
      | nil =>
        rw [serItems, List.append_assoc]
        rw [hP v (by simp) hpl.1 f lvl (indentChars (2 * lvl)) close
          (wsOnly_indentChars _) hdel (by omega)]
        simp [hclose]
      | cons v' vs' =>
        rw [serItems]
        have hshape : (indentChars (2 * lvl) ++
            (serValue v lvl ++ (',' :: '\n' :: serItems (v' :: vs') lvl))) ++ close =
            indentChars (2 * lvl) ++
              (serValue v lvl ++ (',' :: ('\n' :: (serItems (v' :: vs') lvl ++ close)))) := by
          simp [List.append_assoc]
        rw [hshape]
        rw [hP v (by simp) hpl.1 f lvl (indentChars (2 * lvl))
          (',' :: ('\n' :: (serItems (v' :: vs') lvl ++ close)))
          (wsOnly_indentChars _) (by rw [delimOk]; decide) (by omega)]
        have hcomma : skipWs (',' :: ('\n' :: (serItems (v' :: vs') lvl ++ close))) =
            ',' :: ('\n' :: (serItems (v' :: vs') lvl ++ close)) := by
          rw [skipWs, if_neg (by decide)]
        have hrec : parseItemsFuel f ('\n' :: (serItems (v' :: vs') lvl ++ close)) =
            some (.varr (v' :: vs'), rest) := by
          have h1 : skipWs ('\n' :: (serItems (v' :: vs') lvl ++ close)) =
              skipWs (serItems (v' :: vs') lvl ++ close) := by
            rw [skipWs, if_pos (by decide)]
          calc parseItemsFuel f ('\n' :: (serItems (v' :: vs') lvl ++ close))
              = parseItemsFuel f (skipWs ('\n' :: (serItems (v' :: vs') lvl ++ close))) :=
                (parseItemsFuel_skipWs f _).symm
            _ = parseItemsFuel f (skipWs (serItems (v' :: vs') lvl ++ close)) := by rw [h1]
            _ = parseItemsFuel f (serItems (v' :: vs') lvl ++ close) := parseItemsFuel_skipWs f _
            _ = some (.varr (v' :: vs'), rest) := by
                refine ih (by simp) (fun x hx => hP x (List.mem_cons_of_mem _ hx)) hpl.2
                  f lvl close rest (by omega) hdel hclose
        simp [hcomma, hrec]

/-- Parsing the serialized members of a non-empty object, followed by a
closing delimiter that whitespace-reduces to a closing brace, recovers
the object.  The value-level hypothesis is the induction hypothesis of
the main round-trip lemma. -/
lemma parseEntriesFuel_serEntries :
    ∀ (l : List (List Char × Value)), l ≠ [] →
      (∀ kv ∈ l, plainV kv.2 = true →
        ∀ (fuel lvl : Nat) (pre rest : List Char), wsOnly pre = true → delimOk rest = true →
          sizeV kv.2 ≤ fuel →
          parseValueFuel fuel (pre ++ (serValue kv.2 lvl ++ rest)) = some (kv.2, rest)) →
      plainE l = true →
      ∀ (fuel lvl : Nat) (close rest : List Char),
        sizeE l ≤ fuel → delimOk close = true → skipWs close = '\x7d' :: rest →
        parseEntriesFuel fuel (serEntries l lvl ++ close) = some (.vobj l, rest) := by
  intro l
  induction l with
  | nil => intro hne; exact absurd rfl hne
  | cons kv es ih =>
    obtain ⟨k, v⟩ := kv
    intro _ hP hpe fuel lvl close rest hfuel hdel hclose
    rw [plainE, Bool.and_eq_true, Bool.and_eq_true] at hpe
    have hszv : 1 ≤ sizeV v := sizeV_pos v
    rw [sizeE] at hfuel
    cases fuel with
    | zero => omega
    | succ f =>
      rw [parseEntriesFuel]
      cases es with
      | nil =>
        have hshape : serEntries [(k, v)] lvl ++ close =
            indentChars (2 * lvl) ++ ('"' ::
              (encodeBody k ++ ('"' :: (':' :: (' ' :: (serValue v lvl ++ close)))))) := by
          rw [serEntries, encodeString]
          simp [List.append_assoc]
        rw [hshape]
        have hskip : skipWs (indentChars (2 * lvl) ++ ('"' ::
            (encodeBody k ++ ('"' :: (':' :: (' ' :: (serValue v lvl ++ close))))))) =
            '"' :: (encodeBody k ++ ('"' :: (':' :: (' ' :: (serValue v lvl ++ close))))) := by
          rw [skipWs_wsOnly_append _ (wsOnly_indentChars _), skipWs, if_neg (by decide)]
        have hcolon : skipWs (':' :: (' ' :: (serValue v lvl ++ close))) =
            ':' :: (' ' :: (serValue v lvl ++ close)) := by
          rw [skipWs, if_neg (by decide)]
        have hval : parseValueFuel f (' ' :: (serValue v lvl ++ close)) = some (v, close) := by
          have := hP (k, v) (by simp) hpe.1.2 f lvl [' '] close (by decide) hdel (by omega)
          simpa using this
        simp [hskip, parseStringBody_encodeBody k hpe.1.1 (':' :: (' ' :: (serValue v lvl ++ close))),
          hcolon, hval, hclose]
      | cons e es' =>
        have hshape : serEntries ((k, v) :: e :: es') lvl ++ close =
            indentChars (2 * lvl) ++ ('"' ::
              (encodeBody k ++ ('"' :: (':' :: (' ' :: (serValue v lvl ++
                (',' :: ('\n' :: (serEntries (e :: es') lvl ++ close))))))))) := by
          rw [serEntries, encodeString]
          simp [List.append_assoc]
        rw [hshape]
        have hskip : skipWs (indentChars (2 * lvl) ++ ('"' ::
            (encodeBody k ++ ('"' :: (':' :: (' ' :: (serValue v lvl ++
              (',' :: ('\n' :: (serEntries (e :: es') lvl ++ close)))))))))) =
            '"' :: (encodeBody k ++ ('"' :: (':' :: (' ' :: (serValue v lvl ++
              (',' :: ('\n' :: (serEntries (e :: es') lvl ++ close)))))))) := by
          rw [skipWs_wsOnly_append _ (wsOnly_indentChars _), skipWs, if_neg (by decide)]
        have hcolon : skipWs (':' :: (' ' :: (serValue v lvl ++
            (',' :: ('\n' :: (serEntries (e :: es') lvl ++ close)))))) =
            ':' :: (' ' :: (serValue v lvl ++
              (',' :: ('\n' :: (serEntries (e :: es') lvl ++ close))))) := by
          rw [skipWs, if_neg (by decide)]
        have hval : parseValueFuel f (' ' :: (serValue v lvl ++
            (',' :: ('\n' :: (serEntries (e :: es') lvl ++ close))))) =
            some (v, ',' :: ('\n' :: (serEntries (e :: es') lvl ++ close))) := by
          have := hP (k, v) (by simp) hpe.1.2 f lvl [' ']
            (',' :: ('\n' :: (serEntries (e :: es') lvl ++ close)))
            (by decide) (by rw [delimOk]; decide) (by omega)
          simpa using this
        have hcomma : skipWs (',' :: ('\n' :: (serEntries (e :: es') lvl ++ close))) =
            ',' :: ('\n' :: (serEntries (e :: es') lvl ++ close)) := by
          rw [skipWs, if_neg (by decide)]
        have hrec : parseEntriesFuel f ('\n' :: (serEntries (e :: es') lvl ++ close)) =
            some (.vobj (e :: es'), rest) := by
          have h1 : skipWs ('\n' :: (serEntries (e :: es') lvl ++ close)) =
              skipWs (serEntries (e :: es') lvl ++ close) := by
            rw [skipWs, if_pos (by decide)]
          calc parseEntriesFuel f ('\n' :: (serEntries (e :: es') lvl ++ close))
              = parseEntriesFuel f (skipWs ('\n' :: (serEntries (e :: es') lvl ++ close))) :=
                (parseEntriesFuel_skipWs f _).symm
            _ = parseEntriesFuel f (skipWs (serEntries (e :: es') lvl ++ close)) := by rw [h1]
            _ = parseEntriesFuel f (serEntries (e :: es') lvl ++ close) :=
                parseEntriesFuel_skipWs f _
            _ = some (.vobj (e :: es'), rest) :=
                ih (by simp) (fun x hx => hP x (List.mem_cons_of_mem _ hx)) hpe.2
                  f lvl close rest (by omega) hdel hclose
        simp [hskip, parseStringBody_encodeBody k hpe.1.1
          (':' :: (' ' :: (serValue v lvl ++ (',' :: ('\n' :: (serEntries (e :: es') lvl ++ close)))))),
          hcolon, hval, hcomma, hrec]

/-- Main round-trip lemma: parsing a serialized plain value, surrounded
by an all-whitespace prefix and a non-digit-leading remainder, recovers
the value and consumes exactly its serialization. -/
lemma parseValueFuel_serValue : ∀ v : Value, plainV v = true →
    ∀ (fuel lvl : Nat) (pre rest : List Char), wsOnly pre = true → delimOk rest = true →
      sizeV v ≤ fuel → parseValueFuel fuel (pre ++ (serValue v lvl ++ rest)) = some (v, rest) := by
  intro v
  induction v using Value.inductionOn with
  | hnull =>
    intro h fuel lvl pre rest hpre hrest hfuel
    cases fuel with
    | zero => exact absurd hfuel (by simp [sizeV])
    | succ f =>
      rw [parseValueFuel]
      rw [skipWs_wsOnly_append _ hpre, skipWs_serValue]
      rw [serValue]
      simp [dropLiteral]
  | hbool b =>
    intro h fuel lvl pre rest hpre hrest hfuel
    cases fuel with
    | zero => exact absurd hfuel (by simp [sizeV])
    | succ f =>
      rw [parseValueFuel]
      rw [skipWs_wsOnly_append _ hpre, skipWs_serValue]
      cases b with
      | true => rw [serValue]; simp [dropLiteral]
      | false => rw [serValue]; simp [dropLiteral]
  | hint k =>
    intro h fuel lvl pre rest hpre hrest hfuel
    cases fuel with
    | zero => exact absurd hfuel (by simp [sizeV])
    | succ f =>
      calc parseValueFuel (f + 1) (pre ++ (serValue (.vint k) lvl ++ rest))
          = parseValueFuel (f + 1) (skipWs (pre ++ (serValue (.vint k) lvl ++ rest))) :=
            (parseValueFuel_skipWs _ _).symm
        _ = parseValueFuel (f + 1) (serValue (.vint k) lvl ++ rest) := by
            rw [skipWs_wsOnly_append _ hpre, skipWs_serValue]
        _ = some (.vint k, rest) := by
            rw [serValue]
            exact parseValueFuel_intToChars k f rest hrest
  | hstr s =>
    intro h fuel lvl pre rest hpre hrest hfuel
    cases fuel with
    | zero => exact absurd hfuel (by simp [sizeV])
    | succ f =>
      rw [parseValueFuel]
      rw [skipWs_wsOnly_append _ hpre, skipWs_serValue]
      rw [serValue, encodeString]
      have hshape : ('"' :: (encodeBody s ++ ['"'])) ++ rest =
          '"' :: (encodeBody s ++ ('"' :: rest)) := by simp
      rw [hshape]
      have hplain : s.all plainChar = true := by simpa [plainV] using h
      simp [parseStringBody_encodeBody s hplain rest]
  | harr l hmem =>
    cases l with
    | nil =>
      intro h fuel lvl pre rest hpre hrest hfuel
      cases fuel with
      | zero => exact absurd hfuel (by simp [sizeV])
      | succ f =>
        rw [parseValueFuel]
        rw [skipWs_wsOnly_append _ hpre, skipWs_serValue]
        rw [serValue]
        simp [skipWs, show isWsChar ']' = false from by decide]
    | cons v vs =>
      intro h fuel lvl pre rest hpre hrest hfuel
      rw [show sizeV (.varr (v :: vs)) = 1 + sizeL (v :: vs) from rfl] at hfuel
      cases fuel with
      | zero => omega
      | succ f =>
        rw [parseValueFuel]
        rw [skipWs_wsOnly_append _ hpre, skipWs_serValue]
        rw [serValue]
        have hshape : ('[' :: '\n' :: (serItems (v :: vs) (lvl + 1) ++
            ('\n' :: (indentChars (2 * lvl) ++ [']'])))) ++ rest =
            '[' :: ('\n' :: (serItems (v :: vs) (lvl + 1) ++
              ('\n' :: (indentChars (2 * lvl) ++ (']' :: rest))))) := by simp
        rw [hshape]
        obtain ⟨tail, htail⟩ : ∃ tail, serItems (v :: vs) (lvl + 1) =
            indentChars (2 * (lvl + 1)) ++ (serValue v (lvl + 1) ++ tail) := by
          cases vs with
          | nil => exact ⟨[], by rw [serItems]; simp⟩
          | cons v' vs' =>
            exact ⟨',' :: '\n' :: serItems (v' :: vs') (lvl + 1), by rw [serItems]⟩
        obtain ⟨c, t, hser, hws, hbr, hbc, hcm⟩ := serValue_head_facts v (lvl + 1)
        have hskAll : skipWs ('\n' :: (serItems (v :: vs) (lvl + 1) ++
            ('\n' :: (indentChars (2 * lvl) ++ (']' :: rest))))) =
            c :: (t ++ (tail ++ ('\n' :: (indentChars (2 * lvl) ++ (']' :: rest))))) := by
          rw [show skipWs ('\n' :: (serItems (v :: vs) (lvl + 1) ++
              ('\n' :: (indentChars (2 * lvl) ++ (']' :: rest))))) =
              skipWs (serItems (v :: vs) (lvl + 1) ++
                ('\n' :: (indentChars (2 * lvl) ++ (']' :: rest)))) from by
            rw [skipWs, if_pos (by decide)]]
          rw [htail, List.append_assoc, skipWs_wsOnly_append _ (wsOnly_indentChars _),
            List.append_assoc, skipWs_serValue, hser, List.cons_append]
        have hclosefacts : skipWs ('\n' :: (indentChars (2 * lvl) ++ (']' :: rest))) =
            ']' :: rest := by
          rw [skipWs, if_pos (by decide), skipWs_wsOnly_append _ (wsOnly_indentChars _),
            skipWs, if_neg (by decide)]
        have hitems : parseItemsFuel f (serItems (v :: vs) (lvl + 1) ++
            ('\n' :: (indentChars (2 * lvl) ++ (']' :: rest)))) =
            some (.varr (v :: vs), rest) := by
          refine parseItemsFuel_serItems (v :: vs) (by simp) hmem
            (by simpa [plainV] using h) f (lvl + 1) _ rest (by omega)
            (by rw [delimOk]; decide) hclosefacts
        have hfinal : parseItemsFuel f (c :: (t ++ (tail ++
            ('\n' :: (indentChars (2 * lvl) ++ (']' :: rest)))))) =
            some (.varr (v :: vs), rest) := by
          rw [← hskAll]
          calc parseItemsFuel f (skipWs ('\n' :: (serItems (v :: vs) (lvl + 1) ++
              ('\n' :: (indentChars (2 * lvl) ++ (']' :: rest))))))
              = parseItemsFuel f ('\n' :: (serItems (v :: vs) (lvl + 1) ++
                ('\n' :: (indentChars (2 * lvl) ++ (']' :: rest))))) := parseItemsFuel_skipWs _ _
            _ = parseItemsFuel f (skipWs ('\n' :: (serItems (v :: vs) (lvl + 1) ++
                ('\n' :: (indentChars (2 * lvl) ++ (']' :: rest)))))) :=
                (parseItemsFuel_skipWs _ _).symm
            _ = parseItemsFuel f (skipWs (serItems (v :: vs) (lvl + 1) ++
                ('\n' :: (indentChars (2 * lvl) ++ (']' :: rest))))) := by
                rw [skipWs, if_pos (by decide)]
            _ = parseItemsFuel f (serItems (v :: vs) (lvl + 1) ++
                ('\n' :: (indentChars (2 * lvl) ++ (']' :: rest)))) := parseItemsFuel_skipWs _ _
            _ = some (.varr (v :: vs), rest) := hitems
        simp [hskAll, hbr, hfinal]
  | hobj l hmem =>
    cases l with
    | nil =>
      intro h fuel lvl pre rest hpre hrest hfuel
      cases fuel with
      | zero => exact absurd hfuel (by simp [sizeV])
      | succ f =>
        rw [parseValueFuel]
        rw [skipWs_wsOnly_append _ hpre, skipWs_serValue]
        rw [serValue]
        simp [skipWs, show isWsChar '\x7d' = false from by decide]
    | cons e es =>
      intro h fuel lvl pre rest hpre hrest hfuel
      rw [show sizeV (.vobj (e :: es)) = 1 + sizeE (e :: es) from rfl] at hfuel
      cases fuel with
      | zero => omega
      | succ f =>
        rw [parseValueFuel]
        rw [skipWs_wsOnly_append _ hpre, skipWs_serValue]
        rw [serValue]
        have hshape : ('\x7b' :: '\n' :: (serEntries (e :: es) (lvl + 1) ++
            ('\n' :: (indentChars (2 * lvl) ++ ['\x7d'])))) ++ rest =
            '\x7b' :: ('\n' :: (serEntries (e :: es) (lvl + 1) ++
              ('\n' :: (indentChars (2 * lvl) ++ ('\x7d' :: rest))))) := by simp
        rw [hshape]
        obtain ⟨tail, htail⟩ : ∃ tail, serEntries (e :: es) (lvl + 1) =
            indentChars (2 * (lvl + 1)) ++ ('"' :: tail) := by
          obtain ⟨k, v⟩ := e
          cases es with
          | nil =>
            refine ⟨encodeBody k ++ ('"' :: (':' :: (' ' :: serValue v (lvl + 1)))), ?_⟩
            rw [serEntries, encodeString]
            simp
          | cons e' es' =>
            refine ⟨encodeBody k ++ ('"' :: (':' :: (' ' :: (serValue v (lvl + 1) ++
              (',' :: '\n' :: serEntries (e' :: es') (lvl + 1)))))), ?_⟩
            rw [serEntries, encodeString]
            simp
        have hskAll : skipWs ('\n' :: (serEntries (e :: es) (lvl + 1) ++
            ('\n' :: (indentChars (2 * lvl) ++ ('\x7d' :: rest))))) =
            '"' :: (tail ++ ('\n' :: (indentChars (2 * lvl) ++ ('\x7d' :: rest)))) := by
          rw [show skipWs ('\n' :: (serEntries (e :: es) (lvl + 1) ++
              ('\n' :: (indentChars (2 * lvl) ++ ('\x7d' :: rest))))) =
              skipWs (serEntries (e :: es) (lvl + 1) ++
                ('\n' :: (indentChars (2 * lvl) ++ ('\x7d' :: rest)))) from by
            rw [skipWs, if_pos (by decide)]]
          rw [htail, List.append_assoc, skipWs_wsOnly_append _ (wsOnly_indentChars _),
            List.cons_append, skipWs, if_neg (by decide)]
        have hclosefacts : skipWs ('\n' :: (indentChars (2 * lvl) ++ ('\x7d' :: rest))) =
            '\x7d' :: rest := by
          rw [skipWs, if_pos (by decide), skipWs_wsOnly_append _ (wsOnly_indentChars _),
            skipWs, if_neg (by decide)]
        have hentries : parseEntriesFuel f (serEntries (e :: es) (lvl + 1) ++
            ('\n' :: (indentChars (2 * lvl) ++ ('\x7d' :: rest)))) =
            some (.vobj (e :: es), rest) := by
          refine parseEntriesFuel_serEntries (e :: es) (by simp) hmem
            (by simpa [plainV] using h) f (lvl + 1) _ rest (by omega)
            (by rw [delimOk]; decide) hclosefacts
        have hfinal : parseEntriesFuel f ('"' :: (tail ++
            ('\n' :: (indentChars (2 * lvl) ++ ('\x7d' :: rest))))) =
            some (.vobj (e :: es), rest) := by
          rw [← hskAll]
          calc parseEntriesFuel f (skipWs ('\n' :: (serEntries (e :: es) (lvl + 1) ++
              ('\n' :: (indentChars (2 * lvl) ++ ('\x7d' :: rest))))))
              = parseEntriesFuel f ('\n' :: (serEntries (e :: es) (lvl + 1) ++
                ('\n' :: (indentChars (2 * lvl) ++ ('\x7d' :: rest))))) :=
                parseEntriesFuel_skipWs _ _
            _ = parseEntriesFuel f (skipWs ('\n' :: (serEntries (e :: es) (lvl + 1) ++
                ('\n' :: (indentChars (2 * lvl) ++ ('\x7d' :: rest)))))) :=
                (parseEntriesFuel_skipWs _ _).symm
            _ = parseEntriesFuel f (skipWs (serEntries (e :: es) (lvl + 1) ++
                ('\n' :: (indentChars (2 * lvl) ++ ('\x7d' :: rest))))) := by
                rw [skipWs, if_pos (by decide)]
            _ = parseEntriesFuel f (serEntries (e :: es) (lvl + 1) ++
                ('\n' :: (indentChars (2 * lvl) ++ ('\x7d' :: rest)))) :=
                parseEntriesFuel_skipWs _ _
            _ = some (.vobj (e :: es), rest) := hentries
        simp [hskAll, hfinal]

/-- An array's element list needs at most two units of fuel beyond its
serialization's length. -/
lemma sizeL_le_serItems_length :
    ∀ (l : List Value), (∀ v ∈ l, ∀ lvl, sizeV v ≤ (serValue v lvl).length) →
      ∀ lvl, sizeL l ≤ (serItems l lvl).length + 2 := by
  intro l
  induction l with
  | nil => intro _ lvl; simp [sizeL, serItems]
  | cons v vs ih =>
    intro hm lvl
    cases vs with
    | nil =>
      have h1 := hm v (by simp) lvl
      rw [serItems]
      simp only [sizeL, List.length_append]
      omega
    | cons v' vs' =>
      have h1 := hm v (by simp) lvl
      have h2 := ih (fun x hx => hm x (List.mem_cons_of_mem _ hx)) lvl
      rw [serItems]
      simp only [sizeL] at h2 ⊢
      simp only [List.length_append, List.length_cons]
      omega

/-- An object's entry list needs at most two units of fuel beyond its
serialization's length. -/
lemma sizeE_le_serEntries_length :
    ∀ (l : List (List Char × Value)),
      (∀ kv ∈ l, ∀ lvl, sizeV kv.2 ≤ (serValue kv.2 lvl).length) →
      ∀ lvl, sizeE l ≤ (serEntries l lvl).length + 2 := by
  intro l
  induction l with
  | nil => intro _ lvl; simp [sizeE, serEntries]
  | cons kv es ih =>
    obtain ⟨k, v⟩ := kv
    intro hm lvl
    cases es with
    | nil =>
      have h1 : sizeV v ≤ (serValue v lvl).length := hm (k, v) (by simp) lvl
      rw [serEntries]
      simp only [sizeE, List.length_append, List.length_cons]
      omega
    | cons e es' =>
      have h1 : sizeV v ≤ (serValue v lvl).length := hm (k, v) (by simp) lvl
      have h2 := ih (fun x hx => hm x (List.mem_cons_of_mem _ hx)) lvl
      rw [serEntries]
      simp only [sizeE] at h2 ⊢
      simp only [List.length_append, List.length_cons]
      omega

/-- A value's fuel requirement is bounded by its serialization's length. -/
lemma sizeV_le_serValue_length : ∀ v : Value, ∀ lvl, sizeV v ≤ (serValue v lvl).length := by
  intro v
  induction v using Value.inductionOn with
  | hnull => intro lvl; simp [serValue, sizeV]
  | hbool b => intro lvl; cases b <;> simp [serValue, sizeV]
  | hint k =>
    intro lvl
    rw [serValue, intToChars]
    obtain ⟨d, ds, heq, _, _⟩ := natToChars_head_digits k.natAbs
    by_cases h : k < 0
    · rw [if_pos h, heq]
      simp [sizeV]
    · rw [if_neg h, heq]
      simp [sizeV]
  | hstr s => intro lvl; simp [serValue, sizeV, encodeString]
  | harr l hmem =>
    intro lvl
    cases l with
    | nil => simp [serValue, sizeV]
    | cons v vs =>
      have h := sizeL_le_serItems_length (v :: vs) hmem (lvl + 1)
      rw [serValue]
      rw [show sizeV (.varr (v :: vs)) = 1 + sizeL (v :: vs) from rfl]
      simp only [List.length_cons, List.length_append]
      omega
  | hobj l hmem =>
    intro lvl
    cases l with
    | nil => simp [serValue, sizeV]
    | cons e es =>
      have h := sizeE_le_serEntries_length (e :: es) hmem (lvl + 1)
      rw [serValue]
      rw [show sizeV (.vobj (e :: es)) = 1 + sizeE (e :: es) from rfl]
      simp only [List.length_cons, List.length_append]
      omega

/-- Serializing a plain value with `json.dumps(-, indent=2)` and parsing
the output as JSON recovers the value. -/
lemma jsonParse_dumps (v : Value) (h : plainV v = true) :
    jsonParse (json_dumps_indent2 v) = some v := by
  rw [json_dumps_indent2, jsonParse]
  rw [show (⟨serValue v 0⟩ : String).length = (serValue v 0).length from rfl]
  rw [show (⟨serValue v 0⟩ : String).data = serValue v 0 from rfl]
  have hp := parseValueFuel_serValue v h ((serValue v 0).length + 1) 0 [] [] rfl rfl
    (by have := sizeV_le_serValue_length v 0; omega)
  simp only [List.nil_append, List.append_nil] at hp
  rw [hp]
  rfl

/-- C8: `to_message_content` renders a failure as `"Error: "` followed by
the error message; a successful mapping payload renders as formatted
JSON whose parse reconstructs an equal mapping (stated for payloads whose
strings are printable ASCII, the regime in which the embedded
parser implements every escape `json.dumps` emits); and a successful
scalar payload renders as its Python string form. -/
theorem to_message_content_spec :
    ∀ r : ToolResult,
      (r.success = false → ∀ e, r.error = some e → r.to_message_content = "Error: " ++ e) ∧
      (r.success = true → ∀ m, r.result = .vobj m → plainV (.vobj m) = true →
        jsonParse r.to_message_content = some (.vobj m)) ∧
      (r.success = true → isScalar r.result = true → r.to_message_content = pyStr r.result) := by
  intro r
  refine ⟨?_, ?_, ?_⟩
  · intro hs e he
    rw [ToolResult.to_message_content, if_neg (by rw [hs]; exact Bool.false_ne_true), he]
    rfl
  · intro hs m hr hp
    rw [ToolResult.to_message_content, if_pos hs, hr]
    exact jsonParse_dumps (.vobj m) hp
  · intro hs hsc
    rw [ToolResult.to_message_content, if_pos hs]
    cases hr : r.result with
    | vobj l => exact absurd hsc (by rw [hr]; simp [isScalar])
    | varr l => exact absurd hsc (by rw [hr]; simp [isScalar])
    | vnull => rfl
    | vbool b => rfl
    | vint k => rfl
    | vstr s => rfl

/-- Witness for C8: a failed result renders with its error text; the
mapping `\x7b"a": 1\x7d` round-trips through its rendered JSON; an
integer payload renders as its string form. -/
theorem to_message_content_spec_witness :
    (⟨false, .vnull, some "filesystem unavailable"⟩ : ToolResult).to_message_content =
      "Error: " ++ "filesystem unavailable" ∧
    jsonParse (⟨true, objA1, none⟩ : ToolResult).to_message_content = some objA1 ∧
    (⟨true, .vint 7, none⟩ : ToolResult).to_message_content = pyStr (.vint 7) :=
  ⟨(to_message_content_spec _).1 rfl "filesystem unavailable" rfl,
   (to_message_content_spec _).2.1 rfl [(['a'], .vint 1)] rfl rfl,
   (to_message_content_spec _).2.2 rfl rfl⟩

end Facto
